import Mathlib

/-!
# OKPD_fetcher — verification of the spreadsheet reconciliation engine

Shallow embedding of the core logic of the OKPD_fetcher repository:

* `group_similar` (src/main.py) — grouping of item texts by first token;
* `Processor.decide` (src/main.py `_decide`) — code selection with fallbacks;
* the row filter of `Format41Processor._process_sheet` /
  `FullFormatProcessor._collect_items_from_sheet`;
* the write-back of `Format41Processor._update_excel_with_codes` (shared
  verbatim with `FullFormatProcessor`), including cell-text normalization,
  the content lookup map and the fuzzy matcher;
* the write-back of `StandardProcessor._update_excel_with_codes`;
* the content-density column fallback of
  `StandardProcessor._find_columns_in_excel`;
* `BaseProcessor.save_checkpoint`;
* `fetch_okpd2_batch` (src/src/okpd_fetch.py);
* the cooperative cancellation loop of the processors.

Python data is modelled as follows: a spreadsheet cell value is `CellV`
(`none` for an empty cell, a string, or an integer standing for any
non-string value); Python dictionaries are association lists with
insertion-order-preserving assignment (`dinsert`); `float` length ratios
are exact fractions compared by cross-multiplication (for the lengths
arising here the float comparison against the literal `0.8` agrees
exactly with the rational comparison against `4/5`, see `ratioF`).
-/

/-- Python truthiness and `str()` for the cell values openpyxl returns.
`vNone` is an empty cell (`None`), `vStr` a string cell, `vInt` stands for
any non-string non-empty value (numbers). -/
inductive CellV where
  | vNone : CellV
  | vStr : String → CellV
  | vInt : Int → CellV
deriving DecidableEq, Repr

namespace CellV

/-- Python truthiness of a cell value (`if cell.value:`). -/
def truthy : CellV → Bool
  | vNone => false
  | vStr s => s ≠ ""
  | vInt n => n ≠ 0

/-- Python `str()` of a cell value. -/
def toStr : CellV → String
  | vNone => "None"
  | vStr s => s
  | vInt n => toString n

/-- The formula guard of the writers:
`old_value and isinstance(old_value, str) and old_value.startswith('=')`.
(A string starting with `=` is nonempty, so the truthiness conjunct is
subsumed.) -/
def isFormula : CellV → Bool
  | vStr s =>
    match s.data with
    | '=' :: _ => true
    | _ => false
  | _ => false

end CellV

/-! ## Python string primitives -/

/-- Split a character list into maximal whitespace-free words (the
character-level behaviour of Python `str.split()` with no argument);
`cur` is the reversed current word. -/
def wordsChAux : List Char → List Char → List (List Char)
  | [], cur => if cur.isEmpty then [] else [cur.reverse]
  | c :: cs, cur =>
    if c.isWhitespace then
      if cur.isEmpty then wordsChAux cs [] else cur.reverse :: wordsChAux cs []
    else wordsChAux cs (c :: cur)

/-- Python `str.split()` with no argument: split on whitespace runs,
dropping empty pieces. -/
def pyWords (s : String) : List String :=
  (wordsChAux s.data []).map String.mk

/-- Join words with single spaces. -/
def joinSp : List (List Char) → List Char
  | [] => []
  | [w] => w
  | w :: ws => w ++ ' ' :: joinSp ws

/-- `" ".join(text.split())` — collapse whitespace runs to single spaces
and strip the ends. -/
def pyCollapseWs (cs : List Char) : List Char :=
  joinSp (wordsChAux cs [])

/-- Strip leading and trailing whitespace (Python `str.strip()`). -/
def trimCh (cs : List Char) : List Char :=
  ((cs.dropWhile Char.isWhitespace).reverse.dropWhile Char.isWhitespace).reverse

/-- Python `str.strip()`. -/
def pyStrip (s : String) : String := String.mk (trimCh s.data)

/-- Replace every occurrence of the character `a` by `b`
(Python `str.replace` with a one-character pattern). -/
def mapReplace (a b : Char) (cs : List Char) : List Char :=
  cs.map fun c => if c = a then b else c

/-- Python `str.isprintable` restricted to the characters that matter here:
control characters (below space, DEL, C1 block) are not printable. -/
def pyPrintable (c : Char) : Bool :=
  0x20 ≤ c.val && c.val ≠ 0x7f && !(0x80 ≤ c.val && c.val < 0xa0)

/-- Python `str.lower` for the alphabets appearing in this repository
(ASCII and Cyrillic). -/
def pyLowerChar (c : Char) : Char :=
  if 'A' ≤ c ∧ c ≤ 'Z' then Char.ofNat (c.toNat + 32)
  else if 0x410 ≤ c.val ∧ c.val ≤ 0x42F then Char.ofNat (c.toNat + 0x20)
  else if c.val = 0x401 then Char.ofNat 0x451
  else c

/-- Python `str.isdigit` (ASCII digits). -/
def pyIsDigit (s : String) : Bool :=
  s ≠ "" && s.data.all Char.isDigit

/-- `needle` is a prefix of `hay`. -/
def isPrefixCh : List Char → List Char → Bool
  | [], _ => true
  | _ :: _, [] => false
  | a :: as, b :: bs => a == b && isPrefixCh as bs

/-- `needle` occurs contiguously in `hay`. -/
def containsCh (needle : List Char) : List Char → Bool
  | [] => needle.isEmpty
  | c :: t => isPrefixCh needle (c :: t) || containsCh needle t

/-- Python substring test `needle in hay`. -/
def strContains (hay needle : String) : Bool :=
  containsCh needle.data hay.data

/-- `_normalize_cell_text` of `Format41Processor`/`FullFormatProcessor`:
replace non-breaking spaces, collapse whitespace, drop non-printable
characters, replace `- _ . ,` by spaces, collapse again, strip, lower. -/
def normalizeCellText (text : String) : String :=
  if text = "" then ""
  else
    let t := mapReplace (Char.ofNat 0xa0) ' ' text.data
    let t := pyCollapseWs t
    let t := t.filter pyPrintable
    let t := mapReplace ',' ' ' (mapReplace '.' ' ' (mapReplace '_' ' ' (mapReplace '-' ' ' t)))
    let t := pyCollapseWs t
    String.mk ((trimCh t).map pyLowerChar)

/-- `normalized_text.replace(" ", "")` — the no-space variant of a
normalized text (whose only whitespace is single spaces). -/
def removeSpaces (s : String) : String :=
  String.mk (s.data.filter fun c => !(c == ' '))

/-! ## Python-dict association lists -/

/-- Python dict assignment `d[k] = v`: overwrite in place if the key is
present (keeping its position), else append at the end. -/
def dinsert (l : List (String × β)) (k : String) (v : β) : List (String × β) :=
  match l with
  | [] => [(k, v)]
  | (k', v') :: t => if k' = k then (k, v) :: t else (k', v') :: dinsert t k v

/-! ## `group_similar` (src/main.py lines 17–28) -/

/-- One step of `group_similar`'s loop body: skip non-truthy elements and
elements with no whitespace-delimited words, otherwise append the element
to the group of its first word (`by_key[key].append(el)`). -/
def groupStep (acc : List (String × List String)) (el : String) :
    List (String × List String) :=
  if el = "" then acc
  else
    match pyWords el with
    | [] => acc
    | w :: _ =>
      match acc.lookup w with
      | some mems => dinsert acc w (mems ++ [el])
      | none => acc ++ [(w, [el])]

/-- `group_similar(elements)`: group texts by their first
whitespace-delimited word, preserving first-seen key order and member
order (`defaultdict(list)` + insertion). -/
def group_similar (elements : List String) : List (List String) :=
  (elements.foldl groupStep []).map (·.2)

/-! ## `Processor._decide` (src/main.py lines 121–166) -/

structure OkpdEntry where
  code : String
  name : String
deriving DecidableEq, Repr

/-- The fallback code of src/main.py and src/src/okpd_fetch.py. -/
def fallbackCode : String := "32.99.59.000"

/-- The fallback label of src/main.py and src/src/okpd_fetch.py. -/
def fallbackName : String :=
  "Изделия различные прочие, не включенные в другие группировки"

/-- `Processor._decide(entries, original, simplified)`.  The web-search
context and the prompt only feed the language model; its answer enters the
function as the extracted code `modelCode` (`extract_code(resp['content'])`).
With no entries the fixed fallback triple is returned with an *empty*
comment; otherwise the first entry whose code equals `modelCode` gives the
name; with no such entry (or an empty name) the first entry is used with
comment `"(fallback)"`; if the name is still empty, the fallback pair with
comment `"(no matching code)"`. -/
def Processor.decide (entries : List OkpdEntry) (modelCode : String) :
    String × String × String :=
  match entries with
  | [] => (fallbackCode, fallbackName, "")
  | e0 :: _ =>
    let name0 := ((entries.find? (fun e => e.code == modelCode)).map (·.name)).getD ""
    let code1 := if name0 == "" then e0.code else modelCode
    let name1 := if name0 == "" then e0.name else name0
    let comment1 := if name0 == "" then "(fallback)" else ""
    if name1 == "" then (fallbackCode, fallbackName, "(no matching code)")
    else (code1, name1, comment1)

/-! ## Row filter (`Format41Processor._process_sheet` lines 379–419,
`FullFormatProcessor._collect_items_from_sheet` lines 523–570) -/

inductive RowClass where
  | header : RowClass
  | empty : RowClass
  | noise : RowClass
  | data : RowClass
deriving DecidableEq, Repr

/-- First matching noise pattern (`for i, pattern in enumerate(...): if
pattern.search(item_text): break`). -/
def firstMatch (patterns : List (String → Bool)) (t : String) : Option Nat :=
  match patterns with
  | [] => none
  | p :: ps =>
    if p t then some 0
    else (firstMatch ps t).map (· + 1)

/-- The row filter shared by `Format41Processor._process_sheet` and
`FullFormatProcessor._collect_items_from_sheet`: the row's 0-based offset
`idx` against the configured header count, then the emptiness checks on
the item-column value (`none` models `pd.isna`), then the noise-pattern
scan on the stripped text, else the row is data.  Alongside the class the
index of the first matching noise pattern is returned (it is what the
code logs). -/
def classifyRow (headerRows : Nat) (patterns : List (String → Bool))
    (idx : Nat) (cellV : Option String) : RowClass × Option Nat :=
  if idx < headerRows then (.header, none)
  else
    match cellV with
    | none => (.empty, none)
    | some raw =>
      let t := pyStrip raw
      if t = "" ∨ t.length ≤ 1 then (.empty, none)
      else if pyIsDigit t ∧ t.length ≤ 3 then (.empty, none)
      else
        match firstMatch patterns t with
        | some i => (.noise, some i)
        | none => (.data, none)

/-- The emptiness condition of rule 2 of the row filter, as one predicate:
missing value, stripped text of length ≤ 1, or a purely numeric token of
length ≤ 3. -/
def emptyRowCond (cellV : Option String) : Prop :=
  match cellV with
  | none => True
  | some raw =>
    pyStrip raw = "" ∨ (pyStrip raw).length ≤ 1 ∨
      (pyIsDigit (pyStrip raw) ∧ (pyStrip raw).length ≤ 3)

instance (cellV : Option String) : Decidable (emptyRowCond cellV) := by
  unfold emptyRowCond
  cases cellV <;> infer_instance

/-! ## Cooperative cancellation (`StandardProcessor._process_file` lines
260–263, `Format41Processor._process_sheet` lines 466–469,
`FullFormatProcessor._process_file` lines 308–311)

The group loop is `for idx, grp in enumerate(groups, start=1): if
self.stop_event.is_set(): break; <body>`.  `flag i` is the value the
cancellation flag is observed to have at the boundary before the `i`-th
group (1-based); `upd` is the loop body, which mutates the accumulated
results (e.g. `self.results_to_update`). -/

def processGroupsAux (upd : σ → α → σ) (flag : Nat → Bool) :
    Nat → σ → List α → σ
  | _, st, [] => st
  | i, st, g :: gs =>
    if flag i then st else processGroupsAux upd flag (i + 1) (upd st g) gs

/-- The classification loop with its per-group-boundary cancellation
check. -/
def processGroups (upd : σ → α → σ) (flag : Nat → Bool)
    (groups : List α) (init : σ) : σ :=
  processGroupsAux upd flag 1 init groups

/-! ## Content-density column fallback
(`StandardProcessor._find_columns_in_excel` lines 134–161) -/

/-- A sheet: a title, extents, and a total cell function (1-based row and
column as in openpyxl; out-of-range reads are empty cells). -/
structure Sheet where
  title : String
  maxRow : Nat
  maxCol : Nat
  cells : Nat → Nat → CellV

/-- A workbook is its ordered list of sheets. -/
abbrev Workbook := List Sheet

/-- The qualifying-cell test of the density heuristic:
`cell_value and isinstance(cell_value, str) and len(str(cell_value).strip()) > 5`. -/
def densityCell (v : CellV) : Bool :=
  match v with
  | .vStr s => v.truthy && (pyStrip s).length > 5
  | _ => false

/-- `text_counts` of the fallback: for each column in
`range(1, min(10, sheet.max_column + 1))`, the number of rows in
`range(1, min(20, sheet.max_row + 1))` whose cell qualifies. -/
def textCounts (sh : Sheet) : List (Nat × Nat) :=
  (List.range' 1 (min 10 (sh.maxCol + 1) - 1)).map fun col =>
    (col, ((List.range' 1 (min 20 (sh.maxRow + 1) - 1)).filter
      fun row => densityCell (sh.cells row col)).length)

/-- The running-maximum step of Python `max(..., key=lambda x: x[1])`:
replace only on a strictly larger value, so the first maximum wins. -/
def maxStep (cur x : Nat × Nat) : Nat × Nat := if x.2 > cur.2 then x else cur

/-- Python `max(items, key=lambda x: x[1])`: scan keeping the current
maximum, replacing it only on a strictly larger value — the first maximal
element wins. -/
def pyMaxBySnd : List (Nat × Nat) → Option (Nat × Nat)
  | [] => none
  | h :: t => some (t.foldl maxStep h)

/-- The content-density fallback: pick the column with the most qualifying
cells (first on ties); succeed — designating the next column for codes —
only if that count is `> 3` (`if text_counts[name_column] > 3`), else the
detection fails (`return False`). -/
def densityFallback (sh : Sheet) : Option (Nat × Nat) :=
  match pyMaxBySnd (textCounts sh) with
  | none => none
  | some (col, cnt) => if cnt > 3 then some (col, col + 1) else none

/-! ## `fetch_okpd2_batch` (src/src/okpd_fetch.py lines 27–110) -/

/-- The fixed fallback entry list used on every failure path of
`fetch_okpd2_batch`. -/
def fallbackEntries : List OkpdEntry := [⟨fallbackCode, fallbackName⟩]

/-- The environment of one `fetch_okpd2_batch` call.  `browser` is
`.error ()` when `from playwright.sync_api import sync_playwright` raises
`ImportError` or when `pw.chromium.launch`/`new_page` raise (both caught);
otherwise it carries the per-term scrape: `.error ()` for a
`page.goto`/`wait_for_selector` failure (caught per term), `.ok items`
for the scraped code/name pairs (possibly empty). -/
structure FetchEnv where
  cache : List (String × List OkpdEntry)
  browser : Except Unit (String → Except Unit (List OkpdEntry))

/-- The per-term body of the playwright loop: scraped non-empty items are
returned as-is, an empty scrape or a fetch error yields the fallback
entry. -/
def fetchOneTerm (scrape : String → Except Unit (List OkpdEntry))
    (term : String) : List OkpdEntry :=
  match scrape term with
  | .ok items => if items.isEmpty then fallbackEntries else items
  | .error _ => fallbackEntries

/-- The first pass of `fetch_okpd2_batch`: copy cache hits into the
results dict. -/
def cacheHitsPass (cache : List (String × List OkpdEntry)) (terms : List String) :
    List (String × List OkpdEntry) :=
  terms.foldl (fun res term =>
    match cache.lookup term with
    | some entries => dinsert res term entries
    | none => res) []

/-- `fetch_okpd2_batch(terms)`: cache hits first; the remaining terms are
scraped when the browser is available, and receive the fallback entry when
it is not (import error / browser error).  Cache writes are not modelled:
they only affect later calls. -/
def fetch_okpd2_batch (env : FetchEnv) (terms : List String) :
    List (String × List OkpdEntry) :=
  let results := cacheHitsPass env.cache terms
  let remaining := terms.filter (fun t => (results.lookup t).isNone)
  if remaining.isEmpty then results
  else
    match env.browser with
    | .ok scrape =>
      remaining.foldl (fun res term => dinsert res term (fetchOneTerm scrape term)) results
    | .error _ =>
      remaining.foldl (fun res term =>
        if (res.lookup term).isNone then dinsert res term fallbackEntries else res) results

/-! ## `BaseProcessor.save_checkpoint` (src/processors/base_processor.py
lines 59–99) -/

/-- A saved workbook file: ordered sheets by name. -/
abbrev CkFile (α : Type) := List (String × α)

/-- Modelled from the spec: `pandas.ExcelWriter(..., mode='a',
if_sheet_exists='replace')` plus `df.to_excel(writer, sheet_name=...)` —
third-party behaviour not part of this repository's sources: writing a
sheet into an existing file replaces only the sheet of that name
(keeping its position) and leaves every other sheet untouched; a sheet
not yet present is appended. -/
def replaceSheet (file : CkFile α) (name : String) (d : α) : CkFile α :=
  if (file.lookup name).isSome then dinsert file name d else file ++ [(name, d)]

/-- The file-system state: checkpoint paths to saved files. -/
abbrev FsState (α : Type) := String → Option (CkFile α)

/-- `BaseProcessor.save_checkpoint`: with no DataFrame nothing is written;
otherwise, if the checkpoint path exists the target sheet is replaced in
it, else a fresh single-sheet file is created; if that write raises
(`writeFails`), the DataFrame is saved to `<name>.backup.xlsx` instead
(as a fresh default-sheet file, `df.to_excel(backup_name)`); if the backup
write also raises, nothing is written.  Returns the new file system and
the method's boolean result. -/
def save_checkpoint (fs : FsState α) (ckName sheetName : String)
    (df : Option α) (writeFails backupFails : Bool) : FsState α × Bool :=
  match df with
  | none => (fs, false)
  | some d =>
    if writeFails then
      if backupFails then (fs, false)
      else
        let backupName := ckName ++ ".backup.xlsx"
        (fun p => if p = backupName then some [("Sheet1", d)] else fs p, true)
    else
      match fs ckName with
      | some file => (fun p => if p = ckName then some (replaceSheet file sheetName d) else fs p, true)
      | none => (fun p => if p = ckName then some [(sheetName, d)] else fs p, true)

/-! ## Write-back (`Format41Processor._update_excel_with_codes` lines
542–740; `FullFormatProcessor._update_excel_with_codes` lines 584–780 is
the identical algorithm) -/

/-- Modify the `i`-th element of a list in place (out of range: no-op). -/
def modEl : List α → Nat → (α → α) → List α
  | [], _, _ => []
  | x :: t, 0, f => f x :: t
  | x :: t, n + 1, f => x :: modEl t n f

/-- Read a cell of a workbook (`si` is the sheet's position in the
workbook; out-of-range sheets read as empty). -/
def cellAt (wb : Workbook) (si row col : Nat) : CellV :=
  match wb.get? si with
  | some sh => sh.cells row col
  | none => .vNone

/-- `sheets_to_search`: the current sheet first, then every other sheet of
the workbook in order. -/
def sheetsToSearch (wb : Workbook) (cur : Nat) : List Nat :=
  cur :: (List.range wb.length).filter (· ≠ cur)

/-- One row of the lookup-map scan: a truthy cell whose normalized text is
nonempty is recorded under its normalized text and, when different, under
the no-space variant (later rows with the same key overwrite the stored
location, dict-style). -/
def mapRowStep (si : Nat) (sh : Sheet) (nameCol : Nat)
    (m : List (String × (Nat × Nat))) (row : Nat) : List (String × (Nat × Nat)) :=
  let v := sh.cells row nameCol
  if v.truthy then
    let norm := normalizeCellText v.toStr
    if norm ≠ "" then
      let m := dinsert m norm (si, row)
      let ns := removeSpaces norm
      if ns ≠ norm then dinsert m ns (si, row) else m
    else m
  else m

/-- `cell_content_map`: scan the name column of each sheet of
`sheets_to_search` over rows `1..max_row`. -/
def buildMap (wb : Workbook) (order : List Nat) (nameCol : Nat) :
    List (String × (Nat × Nat)) :=
  order.foldl (fun m si =>
    match wb.get? si with
    | none => m
    | some sh => (List.range' 1 sh.maxRow).foldl (mapRowStep si sh nameCol) m) []

/-- A non-negative fraction `num / den` (the write-back's similarity
ratios; denominators are positive in every use). -/
abbrev Frac := Nat × Nat

/-- Strict fraction order by cross-multiplication. -/
def fracLt (a b : Frac) : Bool := a.1 * b.2 < b.1 * a.2

/-- `len(min(a, b, key=len)) / len(max(a, b, key=len))` as a fraction.
For the string lengths arising here the Python float comparison of two
such ratios (and of a ratio against the literal `0.8 = 4/5`) coincides
with the exact rational comparison, because the float quotients are
correctly rounded and far further apart than one ulp whenever the exact
values differ. -/
def ratioF (a b : Nat) : Frac := (min a b, max a b)

/-- One iteration of the partial-match scan over `cell_content_map.items()`:
skip keys shorter than 5; on mutual containment compute the length ratio
and replace the best candidate only on a strict improvement over the
running threshold (initially 0.8). -/
def fuzzyStep (itemNorm : String) (st : Frac × Option (Nat × Nat))
    (kv : String × (Nat × Nat)) : Frac × Option (Nat × Nat) :=
  if kv.1.length < 5 then st
  else if strContains kv.1 itemNorm || strContains itemNorm kv.1 then
    let r := ratioF itemNorm.length kv.1.length
    if fracLt st.1 r then (r, some kv.2) else st
  else st

/-- The fuzzy matcher of the write-back (`best_ratio = 0.8`, first-match
tie-break). -/
def fuzzyFind (itemNorm : String) (m : List (String × (Nat × Nat))) :
    Option (Nat × Nat) :=
  (m.foldl (fuzzyStep itemNorm) ((4, 5), none)).2

/-- Resolution order of the write-back: exact normalized match, no-space
variant, fuzzy match. -/
def matchItem (m : List (String × (Nat × Nat))) (itemNorm : String) :
    Option (Nat × Nat) :=
  match m.lookup itemNorm with
  | some loc => some loc
  | none =>
    match m.lookup (removeSpaces itemNorm) with
    | some loc => some loc
    | none => fuzzyFind itemNorm m

/-- One entry of `results_to_update`: the chosen code, the recorded
`column_name` (a pandas 0-based column index or a column label) and the
item text the cell must be re-located by. -/
structure UpdateData where
  code : String
  columnName : Nat ⊕ String
  item : String

/-- `col_idx`: a pandas integer column converts to 1-based, a label falls
back to the processor's `code_column_index` (possibly `None`). -/
def resolveCol (columnName : Nat ⊕ String) (codeColumnIndex : Option Nat) :
    Option Nat :=
  match columnName with
  | .inl n => some (n + 1)
  | .inr _ => codeColumnIndex

/-- Write `code` into `(row, col)` of sheet `si` unless the existing value
is a formula string, in which case the cell is left untouched
(`if old_value and isinstance(old_value, str) and old_value.startswith('=')`). -/
def writeSheet (sh : Sheet) (row col : Nat) (code : String) : Sheet :=
  if (sh.cells row col).isFormula then sh
  else { sh with cells := fun r c => if r = row ∧ c = col then .vStr code else sh.cells r c }

def writeOne (wb : Workbook) (si row col : Nat) (code : String) : Workbook :=
  modEl wb si fun sh => writeSheet sh row col code

/-- The body of the write-back loop for one `results_to_update` entry:
resolve the code column (skipping on `None`/0), re-locate the cell by its
item text through the lookup map, skip unmatched items, and write through
the formula guard. -/
def writeBackStep (m : List (String × (Nat × Nat))) (codeColumnIndex : Option Nat)
    (wb : Workbook) (d : UpdateData) : Workbook :=
  match resolveCol d.columnName codeColumnIndex with
  | none => wb
  | some col =>
    if col = 0 then wb
    else
      match matchItem m (normalizeCellText d.item) with
      | none => wb
      | some (si, row) => writeOne wb si row col d.code

/-- `Format41Processor._update_excel_with_codes` (the cell-mutation part;
logging, counters and the final `workbook.save` do not change cells): the
lookup map is built once from the name column of all sheets (current
first), then each result is matched and written in order. -/
def format41Update (wb : Workbook) (cur nameCol : Nat)
    (codeColumnIndex : Option Nat) (results : List UpdateData) : Workbook :=
  let m := buildMap wb (sheetsToSearch wb cur) nameCol
  results.foldl (writeBackStep m codeColumnIndex) wb

/-! ## `StandardProcessor._update_excel_with_codes` (lines 355–432) -/

/-- One result entry of the standard processor. -/
structure StdData where
  code : String
  name : String
  comment : String

/-- Unconditionally set a cell of a sheet. -/
def setCell (sh : Sheet) (row col : Nat) (v : CellV) : Sheet :=
  { sh with cells := fun r c => if r = row ∧ c = col then v else sh.cells r c }

/-- Write a header label into row 1 only when the cell is not truthy
(`if not sheet.cell(row=1, column=...).value:`). -/
def fillHeader (sh : Sheet) (col : Nat) (label : String) : Sheet :=
  if (sh.cells 1 col).truthy then sh else setCell sh 1 col (.vStr label)

/-- `StandardProcessor._update_excel_with_codes`: with no code column the
method returns without writing; otherwise missing headers are added in
row 1 and then, for every `(row_idx, data)` of `results_to_update`, code,
name and comment are written unconditionally at `excel_row = row_idx + 1`
into columns `code_col`, `code_col+1`, `code_col+2` — there is no formula
guard here. -/
def standardUpdate (wb : Workbook) (cur : Nat)
    (codeColumnIndex : Option Nat) (results : List (Nat × StdData)) : Workbook :=
  match codeColumnIndex with
  | none => wb
  | some codeCol =>
    if codeCol = 0 then wb
    else
      modEl wb cur fun sh =>
        let sh := fillHeader sh codeCol "ОКПД код"
        let sh := fillHeader sh (codeCol + 1) "Название кода"
        let sh := fillHeader sh (codeCol + 2) "Комментарий"
        results.foldl (fun sh rd =>
          let (rowIdx, d) := rd
          let excelRow := rowIdx + 1
          let sh := setCell sh excelRow codeCol (.vStr d.code)
          let sh := setCell sh excelRow (codeCol + 1) (.vStr d.name)
          setCell sh excelRow (codeCol + 2) (.vStr d.comment)) sh

/-- The noise condition of rule 3: the stripped item text matches some
noise pattern. -/
def noiseCond (patterns : List (String → Bool)) (cellV : Option String) : Prop :=
  match cellV with
  | none => False
  | some raw => (firstMatch patterns (pyStrip raw)).isSome

/-- The elements `group_similar` keeps: truthy strings with at least one
whitespace-delimited word. -/
def validEl (x : String) : Bool := x != "" && !(pyWords x).isEmpty

/-- The grouping key: the first whitespace-delimited word. -/
def keyOf (x : String) : String := (pyWords x).headD ""

/-- The members of key `k` among the inputs `p`, in input order. -/
def memsOf (k : String) (p : List String) : List String :=
  p.filter fun x => validEl x && (keyOf x == k)

/-- Invariant of `group_similar`'s fold: after processing the prefix `p`,
every accumulated entry holds exactly the valid members of its key seen so
far (in order), keys are unique, and every valid processed element has an
entry for its key. -/
structure GroupInv (p : List String) (acc : List (String × List String)) : Prop where
  ent : ∀ kv ∈ acc, kv.2 = memsOf kv.1 p
  nodupKeys : (acc.map Prod.fst).Nodup
  cover : ∀ x ∈ p, validEl x = true → ∃ v, (keyOf x, v) ∈ acc
  nonempty : ∀ kv ∈ acc, kv.2 ≠ []

/-- A lookup key qualifies for the fuzzy match of an item: length at least
5, one normalized string contains the other, and the length ratio is
*strictly* above `4/5`. -/
def fuzzyQualifies (itemNorm key : String) : Prop :=
  5 ≤ key.length ∧
  (strContains key itemNorm = true ∨ strContains itemNorm key = true) ∧
  fracLt (4, 5) (ratioF itemNorm.length key.length) = true

instance (itemNorm key : String) : Decidable (fuzzyQualifies itemNorm key) := by
  unfold fuzzyQualifies
  infer_instance

/-- The ratio the fuzzy scan assigns to a key for a given item. -/
def keyRatio (itemNorm key : String) : Frac := ratioF itemNorm.length key.length

/-- The winning candidate of the fuzzy scan over threshold `b`: the first
entry achieving the maximal qualifying ratio above `b` — every earlier
qualifying key is strictly worse, no later qualifying key is strictly
better. -/
def FzWinner (itemNorm : String) (b : Frac) (l : List (String × (Nat × Nat)))
    (loc : Nat × Nat) : Prop :=
  ∃ l1 k l2, l = l1 ++ (k, loc) :: l2 ∧ fuzzyQualifies itemNorm k ∧
    fracLt b (keyRatio itemNorm k) = true ∧
    (∀ p ∈ l1, fuzzyQualifies itemNorm p.1 →
      fracLt (keyRatio itemNorm p.1) (keyRatio itemNorm k) = true) ∧
    (∀ p ∈ l2, fuzzyQualifies itemNorm p.1 →
      fracLt (keyRatio itemNorm k) (keyRatio itemNorm p.1) = false)

/-- The sheet of the C9 counterexample: one column whose first three rows
hold the 7-character text `"abcdefg"`. -/
def densitySheet3 : Sheet :=
  { title := "S", maxRow := 3, maxCol := 1,
    cells := fun r c => if c = 1 ∧ r ≤ 3 then .vStr "abcdefg" else .vNone }

/-- The per-cell effect of one guarded write. -/
def cellWriteStep (v : CellV) (code : String) : CellV :=
  if v.isFormula then v else .vStr code

/-- The sheet of the C1 counterexample: item text in column 1 of row 2,
a formula in the code column (2) of the same row. -/
def stdCexSheet : Sheet :=
  { title := "S", maxRow := 2, maxCol := 3,
    cells := fun r c =>
      if r = 2 ∧ c = 1 then .vStr "Болт М6"
      else if r = 2 ∧ c = 2 then .vStr "=SUM(A1:A3)"
      else .vNone }

/-- The workbook of the C1 witness: a matched item text next to a formula
code cell. -/
def fmtWitnessSheet : Sheet :=
  { title := "S", maxRow := 1, maxCol := 2,
    cells := fun r c =>
      if r = 1 ∧ c = 1 then .vStr "bolt item x"
      else if r = 1 ∧ c = 2 then .vStr "=A1*2"
      else .vNone }

/-- One resolved write of the write-back loop. -/
structure WriteCmd where
  si : Nat
  row : Nat
  col : Nat
  code : String

/-- The writes the loop will perform, in order: one per result that
resolves a non-zero column and is re-located through the lookup map. -/
def writesOf (m : List (String × (Nat × Nat))) (cci : Option Nat)
    (results : List UpdateData) : List WriteCmd :=
  results.filterMap fun d =>
    match resolveCol d.columnName cci with
    | none => none
    | some col =>
      if col = 0 then none
      else
        match matchItem m (normalizeCellText d.item) with
        | none => none
        | some (si, row) => some ⟨si, row, col, d.code⟩

/-- Apply a list of guarded writes in order. -/
def applyWrites (wb : Workbook) (ws : List WriteCmd) : Workbook :=
  ws.foldl (fun wb w => writeOne wb w.si w.row w.col w.code) wb

/-- Does a write command target the given cell? -/
def targets (w : WriteCmd) (si r c : Nat) : Bool :=
  w.si == si && w.row == r && w.col == c

/-- The sheet of the C6 counterexample: the same item text in rows 1 and 2
of the name column, which is also the written code column. -/
def idemCexSheet : Sheet :=
  { title := "S", maxRow := 2, maxCol := 2,
    cells := fun r c =>
      if r = 1 ∧ c = 1 then .vStr "bolt a"
      else if r = 2 ∧ c = 1 then .vStr "bolt a"
      else .vNone }

/-- The workbook of the C6 witness: an item text in the name column, the
code written into the distinct column 2. -/
def idemWitnessSheet : Sheet :=
  { title := "S", maxRow := 1, maxCol := 2,
    cells := fun r c =>
      if r = 1 ∧ c = 1 then .vStr "bolt item y"
      else .vNone }

/-! # Theorems -/

/-! ## C4 — fallback result on a failed classification lookup -/

/-- C4 (counterexample): the claim says a failed lookup yields the comment
`"(fallback)"`; `_decide` with no entries actually returns the fallback
code and label with an *empty* comment (src/main.py line 124). -/
theorem decide_empty_comment_not_fallback_marker :
    Processor.decide [] "code" = (fallbackCode, fallbackName, "") ∧
      ("" : String) ≠ "(fallback)" := by
  exact ⟨rfl, by decide⟩

/-- C4 (amended): for every term whose classification lookup yields no
entries, `_decide` returns — without raising — exactly the fallback code
`32.99.59.000`, the generic label, and an *empty* comment. -/
theorem decide_empty_entries_fallback (modelCode : String) :
    Processor.decide [] modelCode = (fallbackCode, fallbackName, "") := rfl

/-! ## C5 — row filter rule order -/

/-- `firstMatch` returns the first index whose pattern matches. -/
theorem firstMatch_spec (patterns : List (String → Bool)) (t : String) (i : Nat) :
    firstMatch patterns t = some i ↔
      (∃ p, patterns.get? i = some p ∧ p t = true) ∧
        ∀ j, j < i → ∀ q, patterns.get? j = some q → q t = false := by
  induction patterns generalizing i with
  | nil => simp [firstMatch]
  | cons p ps ih =>
    by_cases hp : p t
    · simp only [firstMatch, hp, if_pos]
      constructor
      · rintro h
        cases h
        exact ⟨⟨p, rfl, hp⟩, fun j hj q hq => absurd hj (Nat.not_lt_zero j)⟩
      · rintro ⟨⟨q, hq, hqt⟩, hmin⟩
        cases i with
        | zero => rfl
        | succ n =>
          have := hmin 0 (Nat.succ_pos n) p rfl
          simp [hp] at this
    · simp only [firstMatch, hp, if_neg, Bool.false_eq_true, not_false_iff]
      cases i with
      | zero =>
        simp only [Option.map_eq_some']
        constructor
        · rintro ⟨a, _, h⟩; omega
        · rintro ⟨⟨q, hq, hqt⟩, _⟩
          simp only [List.get?_cons_zero, Option.some.injEq] at hq
          subst hq
          simp [hqt] at hp
      | succ n =>
        simp only [Option.map_eq_some']
        constructor
        · rintro ⟨a, ha, h⟩
          have han : a = n := by omega
          subst han
          rw [ih] at ha
          refine ⟨ha.1, fun j hj q hq => ?_⟩
          cases j with
          | zero =>
            simp only [List.get?_cons_zero, Option.some.injEq] at hq
            subst hq
            simpa using hp
          | succ m => exact ha.2 m (by omega) q hq
        · rintro ⟨⟨q, hq, hqt⟩, hmin⟩
          refine ⟨n, ?_, rfl⟩
          rw [ih]
          exact ⟨⟨q, hq, hqt⟩, fun j hj r hr => hmin (j + 1) (by omega) r hr⟩

/-- C5: the row filter applies its rules in the fixed order
header → empty → noise → data: a row at 0-based offset below the header
count is a header; otherwise a blank / length ≤ 1 / short-numeric
item-column value makes the row empty; otherwise a noise-pattern match on
the stripped text (the recorded index being that of the first matching
pattern) makes it noise — so a non-empty row matching a noise pattern is
always excluded — and only the remaining rows are data. -/
theorem classifyRow_rule_order (headerRows : Nat)
    (patterns : List (String → Bool)) (idx : Nat) (cellV : Option String) :
    ((classifyRow headerRows patterns idx cellV).1 = .header ↔ idx < headerRows) ∧
    ((classifyRow headerRows patterns idx cellV).1 = .empty ↔
      headerRows ≤ idx ∧ emptyRowCond cellV) ∧
    ((classifyRow headerRows patterns idx cellV).1 = .noise ↔
      headerRows ≤ idx ∧ ¬emptyRowCond cellV ∧ noiseCond patterns cellV) ∧
    ((classifyRow headerRows patterns idx cellV).1 = .data ↔
      headerRows ≤ idx ∧ ¬emptyRowCond cellV ∧ ¬noiseCond patterns cellV) ∧
    (∀ i, (classifyRow headerRows patterns idx cellV).2 = some i →
      (classifyRow headerRows patterns idx cellV).1 = .noise ∧
      (∃ p, patterns.get? i = some p ∧ p (pyStrip (cellV.getD "")) = true) ∧
      ∀ j, j < i → ∀ q, patterns.get? j = some q → q (pyStrip (cellV.getD "")) = false) := by
  by_cases hh : idx < headerRows
  · simp [classifyRow, hh, Nat.not_le.mpr hh]
  · have hle : headerRows ≤ idx := Nat.not_lt.mp hh
    cases cellV with
    | none =>
      simp [classifyRow, hh, hle, emptyRowCond, noiseCond]
    | some raw =>
      by_cases he1 : pyStrip raw = "" ∨ (pyStrip raw).length ≤ 1
      · have hec : emptyRowCond (some raw) := by
          unfold emptyRowCond
          rcases he1 with h | h
          · exact Or.inl h
          · exact Or.inr (Or.inl h)
        simp [classifyRow, hh, he1, hle, hec]
      · by_cases he2 : pyIsDigit (pyStrip raw) ∧ (pyStrip raw).length ≤ 3
        · have hec : emptyRowCond (some raw) := by
            unfold emptyRowCond
            exact Or.inr (Or.inr he2)
          simp [classifyRow, hh, he1, he2, hle, hec]
        · have hec : ¬ emptyRowCond (some raw) := by
            intro h
            unfold emptyRowCond at h
            rcases h with h | h | h
            · exact he1 (Or.inl h)
            · exact he1 (Or.inr h)
            · exact he2 h
          cases hfm : firstMatch patterns (pyStrip raw) with
          | none =>
            have hnc : ¬ noiseCond patterns (some raw) := by
              unfold noiseCond
              simp [hfm]
            have hcl : classifyRow headerRows patterns idx (some raw) = (.data, none) := by
              simp [classifyRow, hh, he1, he2, hfm]
            rw [hcl]
            refine ⟨iff_of_false (by simp) hh, iff_of_false (by simp) (fun h => hec h.2),
              iff_of_false (by simp) (fun h => hnc h.2.2),
              iff_of_true rfl ⟨hle, hec, hnc⟩, ?_⟩
            intro j hj
            cases hj
          | some i =>
            have hnc : noiseCond patterns (some raw) := by
              unfold noiseCond
              simp [hfm]
            have hspec := (firstMatch_spec patterns (pyStrip raw) i).mp hfm
            have hcl : classifyRow headerRows patterns idx (some raw) = (.noise, some i) := by
              simp [classifyRow, hh, he1, he2, hfm]
            rw [hcl]
            refine ⟨iff_of_false (by simp) hh, iff_of_false (by simp) (fun h => hec h.2),
              iff_of_true rfl ⟨hle, hec, hnc⟩,
              iff_of_false (by simp) (fun h => h.2.2 hnc), ?_⟩
            intro j hj
            simp only [Option.some.injEq] at hj
            subst hj
            exact ⟨rfl, hspec.1, hspec.2⟩

/-! ## C2 — grouping partition -/

theorem lookup_mem {β : Type} {l : List (String × β)} {k : String} {v : β}
    (h : l.lookup k = some v) : (k, v) ∈ l := by
  induction l with
  | nil => simp [List.lookup] at h
  | cons kv t ih =>
    rw [List.lookup] at h
    split at h
    · next heq =>
      cases h
      have : k = kv.1 := by simpa using heq
      subst this
      exact List.mem_cons_self _ _
    · exact List.mem_cons_of_mem _ (ih h)

theorem lookup_eq_none_iff {β : Type} {l : List (String × β)} {k : String} :
    l.lookup k = none ↔ ∀ kv ∈ l, kv.1 ≠ k := by
  induction l with
  | nil => simp [List.lookup]
  | cons kv t ih =>
    rw [List.lookup]
    split
    · next heq =>
      have : k = kv.1 := by simpa using heq
      subst this
      simp
    · next heq =>
      have hne : kv.1 ≠ k := by
        intro h
        rw [h] at heq
        simp at heq
      simp only [List.mem_cons]
      constructor
      · intro h kv2 hkv2
        rcases hkv2 with rfl | hkv2
        · exact hne
        · exact (ih.mp h) kv2 hkv2
      · intro h
        exact ih.mpr fun kv2 hkv2 => h kv2 (Or.inr hkv2)

theorem dinsert_map_fst_of_mem {β : Type} {l : List (String × β)} {k : String}
    (v : β) (h : k ∈ l.map Prod.fst) :
    (dinsert l k v).map Prod.fst = l.map Prod.fst := by
  induction l with
  | nil => simp at h
  | cons kv t ih =>
    obtain ⟨k1, v1⟩ := kv
    rw [dinsert]
    by_cases hk : k1 = k
    · rw [if_pos hk]
      simp [hk]
    · rw [if_neg hk]
      simp only [List.map_cons, List.mem_cons] at h
      rcases h with h | h
      · exact absurd h.symm hk
      · simp [ih h]

theorem dinsert_of_not_mem {β : Type} {l : List (String × β)} {k : String}
    (v : β) (h : ∀ kv ∈ l, kv.1 ≠ k) :
    dinsert l k v = l ++ [(k, v)] := by
  induction l with
  | nil => rfl
  | cons kv t ih =>
    obtain ⟨k1, v1⟩ := kv
    rw [dinsert]
    have hne : k1 ≠ k := h (k1, v1) (List.mem_cons_self _ _)
    rw [if_neg hne, List.cons_append]
    rw [ih fun kv2 hkv2 => h kv2 (List.mem_cons_of_mem _ hkv2)]

theorem dinsert_mem_iff {β : Type} {l : List (String × β)} {k : String} {v : β}
    (hnd : (l.map Prod.fst).Nodup) (kv : String × β) :
    kv ∈ dinsert l k v ↔ kv = (k, v) ∨ (kv ∈ l ∧ kv.1 ≠ k) := by
  induction l with
  | nil => simp [dinsert]
  | cons hd t ih =>
    obtain ⟨k1, v1⟩ := hd
    simp only [List.map_cons, List.nodup_cons] at hnd
    rw [dinsert]
    by_cases hk : k1 = k
    · subst hk
      rw [if_pos rfl]
      simp only [List.mem_cons]
      constructor
      · rintro (rfl | h)
        · exact Or.inl rfl
        · refine Or.inr ⟨Or.inr h, ?_⟩
          intro hkv
          exact hnd.1 (hkv ▸ List.mem_map_of_mem Prod.fst h)
      · rintro (rfl | ⟨(rfl | h), hne⟩)
        · exact Or.inl rfl
        · exact absurd rfl hne
        · exact Or.inr h
    · rw [if_neg hk]
      simp only [List.mem_cons, ih hnd.2]
      constructor
      · rintro (rfl | h)
        · exact Or.inr ⟨Or.inl rfl, hk⟩
        · rcases h with rfl | ⟨hmem, hne⟩
          · exact Or.inl rfl
          · exact Or.inr ⟨Or.inr hmem, hne⟩
      · rintro (rfl | ⟨(rfl | hmem), hne⟩)
        · exact Or.inr (Or.inl rfl)
        · exact Or.inl rfl
        · exact Or.inr (Or.inr ⟨hmem, hne⟩)

theorem validEl_eq_false_of_empty {x : String} (h : x = "") : validEl x = false := by
  subst h
  rfl

theorem validEl_eq_false_of_noWords {x : String} (h : pyWords x = []) :
    validEl x = false := by
  unfold validEl
  simp [h]

theorem memsOf_append_invalid (k : String) (p : List String) {el : String}
    (h : validEl el = false) : memsOf k (p ++ [el]) = memsOf k p := by
  unfold memsOf
  rw [List.filter_append]
  simp [List.filter, h]

theorem memsOf_append_other (k : String) (p : List String) {el : String}
    (h : keyOf el ≠ k) : memsOf k (p ++ [el]) = memsOf k p := by
  unfold memsOf
  rw [List.filter_append]
  have : (validEl el && (keyOf el == k)) = false := by
    simp [h]
  simp [List.filter, this]

theorem memsOf_append_key (p : List String) {el : String}
    (hv : validEl el = true) : memsOf (keyOf el) (p ++ [el]) = memsOf (keyOf el) p ++ [el] := by
  unfold memsOf
  rw [List.filter_append]
  simp [List.filter, hv]

theorem groupStep_eq_of_key {acc : List (String × List String)} {el w : String}
    {ws : List String} (he : el ≠ "") (hw : pyWords el = w :: ws) :
    groupStep acc el = (match acc.lookup w with
      | some mems => dinsert acc w (mems ++ [el])
      | none => acc ++ [(w, [el])]) := by
  rw [groupStep, if_neg he, hw]

theorem groupStep_inv {p : List String} {acc : List (String × List String)}
    (h : GroupInv p acc) (el : String) : GroupInv (p ++ [el]) (groupStep acc el) := by
  by_cases he : el = ""
  · have hstep : groupStep acc el = acc := by rw [groupStep, if_pos he]
    rw [hstep]
    have hv := validEl_eq_false_of_empty he
    refine ⟨fun kv hkv => ?_, h.nodupKeys, fun x hx hvx => ?_, h.nonempty⟩
    · rw [memsOf_append_invalid _ _ hv]
      exact h.ent kv hkv
    · rcases List.mem_append.mp hx with hx | hx
      · exact h.cover x hx hvx
      · simp only [List.mem_singleton] at hx
        subst hx
        rw [hv] at hvx
        cases hvx
  · cases hw : pyWords el with
    | nil =>
      have hstep : groupStep acc el = acc := by rw [groupStep, if_neg he, hw]
      rw [hstep]
      have hv := validEl_eq_false_of_noWords hw
      refine ⟨fun kv hkv => ?_, h.nodupKeys, fun x hx hvx => ?_, h.nonempty⟩
      · rw [memsOf_append_invalid _ _ hv]
        exact h.ent kv hkv
      · rcases List.mem_append.mp hx with hx | hx
        · exact h.cover x hx hvx
        · simp only [List.mem_singleton] at hx
          subst hx
          rw [hv] at hvx
          cases hvx
    | cons w ws =>
      have hv : validEl el = true := by
        unfold validEl
        simp [he, hw]
      have hkey : keyOf el = w := by
        unfold keyOf
        rw [hw]
        rfl
      have hred : groupStep acc el = _ := groupStep_eq_of_key he hw
      cases hlk : acc.lookup w with
      | some mems =>
        rw [hlk] at hred
        rw [hred]
        have hmem : (w, mems) ∈ acc := lookup_mem hlk
        have hw_in : w ∈ acc.map Prod.fst := List.mem_map_of_mem Prod.fst hmem
        have hmems : mems = memsOf w p := h.ent (w, mems) hmem
        refine ⟨fun kv hkv => ?_, ?_, fun x hx hvx => ?_, fun kv hkv => ?_⟩
        · rw [dinsert_mem_iff h.nodupKeys] at hkv
          rcases hkv with rfl | ⟨hkv, hne⟩
          · show mems ++ [el] = memsOf w (p ++ [el])
            rw [← hkey, memsOf_append_key p hv, hkey, hmems]
          · rw [memsOf_append_other kv.1 p (by rw [hkey]; exact fun hc => hne hc.symm)]
            exact h.ent kv hkv
        · rw [dinsert_map_fst_of_mem _ hw_in]
          exact h.nodupKeys
        · rcases List.mem_append.mp hx with hx | hx
          · obtain ⟨v, hv2⟩ := h.cover x hx hvx
            by_cases hk : keyOf x = w
            · refine ⟨mems ++ [el], ?_⟩
              rw [hk, dinsert_mem_iff h.nodupKeys]
              exact Or.inl rfl
            · refine ⟨v, ?_⟩
              rw [dinsert_mem_iff h.nodupKeys]
              exact Or.inr ⟨hv2, hk⟩
          · simp only [List.mem_singleton] at hx
            rw [hx]
            refine ⟨mems ++ [el], ?_⟩
            rw [hkey, dinsert_mem_iff h.nodupKeys]
            exact Or.inl rfl
        · rw [dinsert_mem_iff h.nodupKeys] at hkv
          rcases hkv with rfl | ⟨hkv, _⟩
          · simp
          · exact h.nonempty kv hkv
      | none =>
        rw [hlk] at hred
        rw [hred]
        have hnone : ∀ kv ∈ acc, kv.1 ≠ w := lookup_eq_none_iff.mp hlk
        have hmems_nil : memsOf w p = [] := by
          unfold memsOf
          rw [List.filter_eq_nil_iff]
          intro x hx hcond
          have hvx : validEl x = true := ((Bool.and_eq_true _ _).mp hcond).1
          have hkx : keyOf x = w := by
            have := ((Bool.and_eq_true _ _).mp hcond).2
            simpa using this
          obtain ⟨v, hv2⟩ := h.cover x hx hvx
          exact hnone (keyOf x, v) hv2 (by rw [hkx])
        refine ⟨fun kv hkv => ?_, ?_, fun x hx hvx => ?_, fun kv hkv => ?_⟩
        · rcases List.mem_append.mp hkv with hkv | hkv
          · rw [memsOf_append_other kv.1 p (by rw [hkey]; exact fun hc => hnone kv hkv hc.symm)]
            exact h.ent kv hkv
          · simp only [List.mem_singleton] at hkv
            subst hkv
            show [el] = memsOf w (p ++ [el])
            rw [← hkey, memsOf_append_key p hv, hkey, hmems_nil]
            rfl
        · rw [List.map_append, List.nodup_append]
          refine ⟨h.nodupKeys, List.nodup_singleton _, ?_⟩
          intro a ha hb
          simp only [List.map_cons, List.map_nil, List.mem_singleton] at hb
          subst hb
          obtain ⟨kv, hkv, hfst⟩ := List.mem_map.mp ha
          exact hnone kv hkv hfst
        · rcases List.mem_append.mp hx with hx | hx
          · obtain ⟨v, hv2⟩ := h.cover x hx hvx
            exact ⟨v, List.mem_append_left _ hv2⟩
          · simp only [List.mem_singleton] at hx
            rw [hx]
            exact ⟨[el], by rw [hkey]; exact List.mem_append_right _ (List.mem_singleton_self _)⟩
        · rcases List.mem_append.mp hkv with hkv | hkv
          · exact h.nonempty kv hkv
          · simp only [List.mem_singleton] at hkv
            subst hkv
            simp

theorem foldl_groupStep_inv (l : List String) :
    ∀ (p : List String) (acc : List (String × List String)),
      GroupInv p acc → GroupInv (p ++ l) (l.foldl groupStep acc) := by
  induction l with
  | nil => intro p acc h; simpa using h
  | cons x t ih =>
    intro p acc h
    have h1 := groupStep_inv h x
    have h2 := ih (p ++ [x]) (groupStep acc x) h1
    simpa [List.append_assoc] using h2

theorem group_similar_inv (elements : List String) :
    GroupInv elements (elements.foldl groupStep []) := by
  have h0 : GroupInv [] [] := by
    refine ⟨fun kv hkv => absurd hkv (List.not_mem_nil kv), List.nodup_nil,
      fun x hx _ => absurd hx (List.not_mem_nil x),
      fun kv hkv => absurd hkv (List.not_mem_nil kv)⟩
  simpa using foldl_groupStep_inv elements [] [] h0

/-- C2 (counterexample): the claim asserts the groups cover the whole input
set, but `group_similar` silently drops blank elements: on input
`[" "]` the output is no groups at all, so the blank input element is in
no group. -/
theorem group_similar_drops_blank :
    group_similar [" "] = [] ∧ (" " : String) ∈ [" "] := by
  constructor
  · decide
  · exact List.mem_singleton_self _

/-- C2 (amended): the groups of `group_similar` form a partition of the
*non-blank* input elements (those with at least one whitespace-delimited
word): groups are pairwise disjoint; an element lies in some group iff it
is a non-blank input element; and each group is exactly the in-order list
of input elements carrying one common first word — in particular its
first member (the representative the callers take via `group[0]`) is the
first-encountered input element with that word, and every member shares
that first word. -/
theorem group_similar_partitions_nonblank (elements : List String) :
    List.Pairwise (fun g1 g2 => ∀ x, x ∈ g1 → x ∉ g2) (group_similar elements) ∧
    (∀ x, (∃ g ∈ group_similar elements, x ∈ g) ↔ (x ∈ elements ∧ validEl x = true)) ∧
    (∀ g ∈ group_similar elements, ∃ k, g = memsOf k elements ∧ g ≠ [] ∧
      ∀ x ∈ g, (pyWords x).head? = some k) := by
  have hinv := group_similar_inv elements
  set acc := elements.foldl groupStep [] with hacc
  have hmem_facts : ∀ kv ∈ acc, ∀ x ∈ kv.2, validEl x = true ∧ keyOf x = kv.1 := by
    intro kv hkv x hx
    rw [hinv.ent kv hkv] at hx
    unfold memsOf at hx
    rw [List.mem_filter] at hx
    have := hx.2
    rw [Bool.and_eq_true] at this
    exact ⟨this.1, by simpa using this.2⟩
  refine ⟨?_, ?_, ?_⟩
  · -- pairwise disjointness from key uniqueness
    unfold group_similar
    rw [← hacc, List.pairwise_map]
    have hkeys : List.Pairwise (fun a b : String × List String => a.1 ≠ b.1) acc := by
      have := hinv.nodupKeys
      rw [List.Nodup, List.pairwise_map] at this
      exact this
    refine List.Pairwise.imp_of_mem ?_ hkeys
    intro a b ha hb hne x hxa hxb
    have h1 := hmem_facts a ha x hxa
    have h2 := hmem_facts b hb x hxb
    exact hne (h1.2 ▸ h2.2 ▸ rfl)
  · intro x
    constructor
    · rintro ⟨g, hg, hxg⟩
      unfold group_similar at hg
      rw [← hacc] at hg
      obtain ⟨kv, hkv, rfl⟩ := List.mem_map.mp hg
      have hx2 := hmem_facts kv hkv x hxg
      rw [hinv.ent kv hkv] at hxg
      unfold memsOf at hxg
      exact ⟨(List.mem_filter.mp hxg).1, hx2.1⟩
    · rintro ⟨hx, hvx⟩
      obtain ⟨v, hv⟩ := hinv.cover x hx hvx
      refine ⟨v, ?_, ?_⟩
      · unfold group_similar
        rw [← hacc]
        exact List.mem_map_of_mem _ hv
      · have hent : v = memsOf (keyOf x) elements := hinv.ent (keyOf x, v) hv
        rw [hent]
        unfold memsOf
        rw [List.mem_filter]
        exact ⟨hx, by simp [hvx]⟩
  · intro g hg
    unfold group_similar at hg
    rw [← hacc] at hg
    obtain ⟨kv, hkv, rfl⟩ := List.mem_map.mp hg
    refine ⟨kv.1, hinv.ent kv hkv, hinv.nonempty kv hkv, ?_⟩
    intro x hx
    have hfacts := hmem_facts kv hkv x hx
    have hwne : pyWords x ≠ [] := by
      intro hnil
      rw [validEl_eq_false_of_noWords hnil] at hfacts
      cases hfacts.1
    cases hwx : pyWords x with
    | nil => exact absurd hwx hwne
    | cons w ws =>
      have : keyOf x = w := by
        unfold keyOf
        rw [hwx]
        rfl
      rw [List.head?_cons, ← this, hfacts.2]

/-! ## C3 — fuzzy matcher characterization -/

theorem fracLt_trans_of_ge {q b r : Frac} (hq : 0 < q.2)
    (h1 : fracLt b q = false) (h2 : fracLt b r = true) : fracLt q r = true := by
  unfold fracLt at h1 h2 ⊢
  rw [decide_eq_false_iff_not, Nat.not_lt] at h1
  rw [decide_eq_true_eq] at h2
  rw [decide_eq_true_eq]
  have step1 : q.1 * r.2 * b.2 ≤ b.1 * r.2 * q.2 := by
    calc q.1 * r.2 * b.2 = (q.1 * b.2) * r.2 := by ring
      _ ≤ (b.1 * q.2) * r.2 := Nat.mul_le_mul_right _ h1
      _ = b.1 * r.2 * q.2 := by ring
  have step2 : b.1 * r.2 * q.2 < r.1 * q.2 * b.2 := by
    calc b.1 * r.2 * q.2 < (r.1 * b.2) * q.2 := by
          exact Nat.mul_lt_mul_of_lt_of_le h2 (le_refl _) hq
      _ = r.1 * q.2 * b.2 := by ring
  have := Nat.lt_of_le_of_lt step1 step2
  exact Nat.lt_of_mul_lt_mul_right this

theorem keyRatio_den_pos {itemNorm key : String} (h : fuzzyQualifies itemNorm key) :
    0 < (keyRatio itemNorm key).2 := by
  unfold keyRatio ratioF
  have := h.1
  simp only [Prod.snd]
  omega

theorem fracLt_asymm {a b : Frac} (h : fracLt a b = true) : fracLt b a = false := by
  unfold fracLt at h ⊢
  rw [decide_eq_true_eq] at h
  rw [decide_eq_false_iff_not, Nat.not_lt]
  omega

theorem fracLt_false_trans {a b c : Frac} (hb : 0 < b.2)
    (h1 : fracLt a b = false) (h2 : fracLt b c = false) : fracLt a c = false := by
  unfold fracLt at h1 h2 ⊢
  rw [decide_eq_false_iff_not, Nat.not_lt] at h1 h2
  rw [decide_eq_false_iff_not, Nat.not_lt]
  have chain : c.1 * a.2 * b.2 ≤ a.1 * c.2 * b.2 := by
    calc c.1 * a.2 * b.2 = (c.1 * b.2) * a.2 := by ring
      _ ≤ (b.1 * c.2) * a.2 := Nat.mul_le_mul_right _ h2
      _ = (b.1 * a.2) * c.2 := by ring
      _ ≤ (a.1 * b.2) * c.2 := Nat.mul_le_mul_right _ h1
      _ = a.1 * c.2 * b.2 := by ring
  exact Nat.le_of_mul_le_mul_right chain hb

/-- Unchanged fuzzy step for a non-qualifying key, provided the running
threshold is at least the initial `4/5`. -/
theorem fuzzyStep_of_not_qual {itemNorm : String} {b : Frac} {m : Option (Nat × Nat)}
    {kv : String × (Nat × Nat)} (hb45 : fracLt b (4, 5) = false)
    (hq : ¬ fuzzyQualifies itemNorm kv.1) :
    fuzzyStep itemNorm (b, m) kv = (b, m) := by
  unfold fuzzyStep
  by_cases hlen : kv.1.length < 5
  · rw [if_pos hlen]
  · rw [if_neg hlen]
    by_cases hcont : (strContains kv.1 itemNorm || strContains itemNorm kv.1) = true
    · rw [if_pos hcont]
      have h45r : fracLt (4, 5) (ratioF itemNorm.length kv.1.length) = false := by
        by_contra hc
        rw [Bool.not_eq_false] at hc
        exact hq ⟨by omega, by rwa [Bool.or_eq_true] at hcont, hc⟩
      have : fracLt (b, m).1 (ratioF itemNorm.length kv.1.length) = false :=
        fracLt_false_trans (by norm_num) hb45 h45r
      rw [if_neg (by simp [this])]
    · rw [if_neg hcont]

/-- Unchanged fuzzy step for a qualifying key that does not beat the
running threshold. -/
theorem fuzzyStep_of_no_improve {itemNorm : String} {b : Frac} {m : Option (Nat × Nat)}
    {kv : String × (Nat × Nat)} (hq : fuzzyQualifies itemNorm kv.1)
    (himp : fracLt b (keyRatio itemNorm kv.1) = false) :
    fuzzyStep itemNorm (b, m) kv = (b, m) := by
  unfold fuzzyStep
  rw [if_neg (by have := hq.1; omega : ¬ kv.1.length < 5)]
  have hcont : (strContains kv.1 itemNorm || strContains itemNorm kv.1) = true := by
    rcases hq.2.1 with h | h <;> simp [h]
  rw [if_pos hcont]
  have himp2 : fracLt (b, m).1 (ratioF itemNorm.length kv.1.length) = false := himp
  rw [if_neg (by simp [himp2])]

/-- Improving fuzzy step: threshold and candidate move to the key. -/
theorem fuzzyStep_of_improve {itemNorm : String} {b : Frac} {m : Option (Nat × Nat)}
    {kv : String × (Nat × Nat)} (hq : fuzzyQualifies itemNorm kv.1)
    (himp : fracLt b (keyRatio itemNorm kv.1) = true) :
    fuzzyStep itemNorm (b, m) kv = (keyRatio itemNorm kv.1, some kv.2) := by
  unfold fuzzyStep
  rw [if_neg (by have := hq.1; omega : ¬ kv.1.length < 5)]
  have hcont : (strContains kv.1 itemNorm || strContains itemNorm kv.1) = true := by
    rcases hq.2.1 with h | h <;> simp [h]
  rw [if_pos hcont]
  have himp2 : fracLt (b, m).1 (ratioF itemNorm.length kv.1.length) = true := himp
  rw [if_pos himp2]
  rfl

/-- The (`fuzzyStep` fold).2 is `some loc` iff either there is a winner
above the threshold, or nothing improves on the threshold and the initial
candidate already was `loc`.  The threshold must sit at or above the
initial `4/5` with a positive denominator, as it does throughout the scan. -/
theorem fuzzyFold_some_iff (itemNorm : String) (l : List (String × (Nat × Nat))) :
    ∀ (b : Frac) (m : Option (Nat × Nat)) (loc : Nat × Nat), 0 < b.2 →
      fracLt b (4, 5) = false →
      ((l.foldl (fuzzyStep itemNorm) (b, m)).2 = some loc ↔
        (FzWinner itemNorm b l loc ∨
          (m = some loc ∧ ∀ p ∈ l, fuzzyQualifies itemNorm p.1 →
            fracLt b (keyRatio itemNorm p.1) = false))) := by
  induction l with
  | nil =>
    intro b m loc hb hb45
    simp only [List.foldl_nil]
    constructor
    · intro h
      exact Or.inr ⟨h, fun p hp => absurd hp (List.not_mem_nil p)⟩
    · rintro (⟨l1, k, l2, heq, _⟩ | ⟨h, _⟩)
      · exact absurd heq (by simp)
      · exact h
  | cons kv t ih =>
    intro b m loc hb hb45
    rw [List.foldl_cons]
    by_cases hq : fuzzyQualifies itemNorm kv.1
    · by_cases himp : fracLt b (keyRatio itemNorm kv.1) = true
      · -- the head strictly improves: threshold and candidate move to kv
        rw [fuzzyStep_of_improve hq himp]
        have hr45 : fracLt (keyRatio itemNorm kv.1) (4, 5) = false := by
          refine fracLt_false_trans hb (fracLt_asymm himp) hb45
        rw [ih _ _ loc (keyRatio_den_pos hq) hr45]
        constructor
        · rintro (⟨l1, k, l2, heq, hk, hgt, hearlier, hlater⟩ | ⟨hm, hrest⟩)
          · -- winner inside t
            refine Or.inl ⟨kv :: l1, k, l2, by simp [heq], hk,
              fracLt_trans_of_ge hb (fracLt_asymm himp) hgt, ?_, hlater⟩
            intro p hp hpq
            rcases List.mem_cons.mp hp with rfl | hp
            · exact hgt
            · exact hearlier p hp hpq
          · -- no further improvement: the head wins
            cases hm
            exact Or.inl ⟨[], kv.1, t, by simp, hq, himp, by simp, hrest⟩
        · rintro (⟨l1, k, l2, heq, hk, hgt, hearlier, hlater⟩ | ⟨hm, hrest⟩)
          · cases l1 with
            | nil =>
              simp only [List.nil_append, List.cons.injEq] at heq
              obtain ⟨hkv, ht⟩ := heq
              subst ht
              refine Or.inr ⟨?_, ?_⟩
              · rw [show kv.2 = loc from congrArg Prod.snd hkv]
              · intro p hp hpq
                have hlat := hlater p hp hpq
                have hkk : k = kv.1 := congrArg Prod.fst hkv.symm
                rw [← hkk]
                exact hlat
            | cons hd l1t =>
              simp only [List.cons_append, List.cons.injEq] at heq
              obtain ⟨hhd, ht⟩ := heq
              subst hhd
              refine Or.inl ⟨l1t, k, l2, ht, hk,
                hearlier kv (List.mem_cons_self _ _) hq, ?_, hlater⟩
              intro p hp hpq
              exact hearlier p (List.mem_cons_of_mem _ hp) hpq
          · exact absurd himp (by simp [hrest kv (List.mem_cons_self _ _) hq])
      · -- qualifying but not improving: state unchanged
        have hble : fracLt b (keyRatio itemNorm kv.1) = false :=
          Bool.eq_false_iff.mpr himp
        rw [fuzzyStep_of_no_improve hq hble, ih _ _ loc hb hb45]
        constructor
        · rintro (⟨l1, k, l2, heq, hk, hgt, hearlier, hlater⟩ | ⟨hm, hrest⟩)
          · refine Or.inl ⟨kv :: l1, k, l2, by simp [heq], hk, hgt, ?_, hlater⟩
            intro p hp hpq
            rcases List.mem_cons.mp hp with rfl | hp
            · exact fracLt_trans_of_ge (keyRatio_den_pos hpq) hble hgt
            · exact hearlier p hp hpq
          · refine Or.inr ⟨hm, ?_⟩
            intro p hp hpq
            rcases List.mem_cons.mp hp with rfl | hp
            · exact hble
            · exact hrest p hp hpq
        · rintro (⟨l1, k, l2, heq, hk, hgt, hearlier, hlater⟩ | ⟨hm, hrest⟩)
          · cases l1 with
            | nil =>
              simp only [List.nil_append, List.cons.injEq] at heq
              obtain ⟨hkv, ht⟩ := heq
              have hkk : k = kv.1 := congrArg Prod.fst hkv.symm
              rw [hkk] at hgt
              exact absurd hgt (by simp [hble])
            | cons hd l1t =>
              simp only [List.cons_append, List.cons.injEq] at heq
              obtain ⟨hhd, ht⟩ := heq
              refine Or.inl ⟨l1t, k, l2, ht, hk, hgt, ?_, hlater⟩
              intro p hp hpq
              exact hearlier p (hhd ▸ List.mem_cons_of_mem _ hp) hpq
          · refine Or.inr ⟨hm, ?_⟩
            intro p hp hpq
            exact hrest p (List.mem_cons_of_mem _ hp) hpq
    · -- non-qualifying head: state unchanged and irrelevant
      rw [fuzzyStep_of_not_qual hb45 hq, ih _ _ loc hb hb45]
      constructor
      · rintro (⟨l1, k, l2, heq, hk, hgt, hearlier, hlater⟩ | ⟨hm, hrest⟩)
        · refine Or.inl ⟨kv :: l1, k, l2, by simp [heq], hk, hgt, ?_, hlater⟩
          intro p hp hpq
          rcases List.mem_cons.mp hp with rfl | hp
          · exact absurd hpq hq
          · exact hearlier p hp hpq
        · refine Or.inr ⟨hm, ?_⟩
          intro p hp hpq
          rcases List.mem_cons.mp hp with rfl | hp
          · exact absurd hpq hq
          · exact hrest p hp hpq
      · rintro (⟨l1, k, l2, heq, hk, hgt, hearlier, hlater⟩ | ⟨hm, hrest⟩)
        · cases l1 with
          | nil =>
            simp only [List.nil_append, List.cons.injEq] at heq
            obtain ⟨hkv, _⟩ := heq
            have hkk : k = kv.1 := congrArg Prod.fst hkv.symm
            rw [hkk] at hk
            exact absurd hk hq
          | cons hd l1t =>
            simp only [List.cons_append, List.cons.injEq] at heq
            obtain ⟨hhd, ht⟩ := heq
            refine Or.inl ⟨l1t, k, l2, ht, hk, hgt, ?_, hlater⟩
            intro p hp hpq
            exact hearlier p (hhd ▸ List.mem_cons_of_mem _ hp) hpq
        · refine Or.inr ⟨hm, ?_⟩
          intro p hp hpq
          exact hrest p (List.mem_cons_of_mem _ hp) hpq

theorem fuzzyFold_none_iff (itemNorm : String) (l : List (String × (Nat × Nat))) :
    ∀ (b : Frac) (m : Option (Nat × Nat)), 0 < b.2 → fracLt b (4, 5) = false →
      ((l.foldl (fuzzyStep itemNorm) (b, m)).2 = none ↔
        (m = none ∧ ∀ p ∈ l, fuzzyQualifies itemNorm p.1 →
          fracLt b (keyRatio itemNorm p.1) = false)) := by
  induction l with
  | nil =>
    intro b m hb hb45
    simp
  | cons kv t ih =>
    intro b m hb hb45
    rw [List.foldl_cons]
    by_cases hq : fuzzyQualifies itemNorm kv.1
    · by_cases himp : fracLt b (keyRatio itemNorm kv.1) = true
      · rw [fuzzyStep_of_improve hq himp]
        have hr45 : fracLt (keyRatio itemNorm kv.1) (4, 5) = false :=
          fracLt_false_trans hb (fracLt_asymm himp) hb45
        rw [ih _ _ (keyRatio_den_pos hq) hr45]
        constructor
        · rintro ⟨h82, _⟩
          cases h82
        · rintro ⟨_, hrest⟩
          exact absurd himp (by simp [hrest kv (List.mem_cons_self _ _) hq])
      · have hble : fracLt b (keyRatio itemNorm kv.1) = false :=
          Bool.eq_false_iff.mpr himp
        rw [fuzzyStep_of_no_improve hq hble, ih _ _ hb hb45]
        constructor
        · rintro ⟨hm, hrest⟩
          refine ⟨hm, ?_⟩
          intro p hp hpq
          rcases List.mem_cons.mp hp with rfl | hp
          · exact hble
          · exact hrest p hp hpq
        · rintro ⟨hm, hrest⟩
          exact ⟨hm, fun p hp hpq => hrest p (List.mem_cons_of_mem _ hp) hpq⟩
    · rw [fuzzyStep_of_not_qual hb45 hq, ih _ _ hb hb45]
      constructor
      · rintro ⟨hm, hrest⟩
        refine ⟨hm, ?_⟩
        intro p hp hpq
        rcases List.mem_cons.mp hp with rfl | hp
        · exact absurd hpq hq
        · exact hrest p hp hpq
      · rintro ⟨hm, hrest⟩
        exact ⟨hm, fun p hp hpq => hrest p (List.mem_cons_of_mem _ hp) hpq⟩

/-- C3 (counterexample): with the lookup map holding the single key
`"abcde"` and item text `"abcd"`, the key has length 5 ≥ 5, one string
contains the other, and the length ratio is exactly 4/5 = 0.80 — so the
claim (acceptance at ratio ≥ 0.80) would accept it — yet the scan of the
code accepts only ratios strictly above 0.8 and returns no match. -/
theorem fuzzyFind_rejects_ratio_exactly_080 :
    fuzzyFind "abcd" [("abcde", (1, 7))] = none ∧
    5 ≤ ("abcde" : String).length ∧
    strContains "abcde" "abcd" = true ∧
    (min ("abcd" : String).length ("abcde" : String).length) * 5 =
      4 * (max ("abcd" : String).length ("abcde" : String).length) := by
  decide

/-- C3 (amended): the fuzzy step yields a match iff some lookup key of
length ≥ 5 mutually contains the item text with length ratio *strictly
above* 0.8 (not ≥ 0.8 as claimed), and the returned location is that of
the first key attaining the maximal such ratio — every earlier qualifying
key is strictly worse, no later qualifying key is strictly better (ties
fall to the first candidate encountered during the scan).  In particular
keys shorter than 5 characters are never accepted
(`fuzzyQualifies` requires `5 ≤ key.length`). -/
theorem fuzzyFind_spec (itemNorm : String) (m : List (String × (Nat × Nat))) :
    (∀ loc, fuzzyFind itemNorm m = some loc ↔ FzWinner itemNorm (4, 5) m loc) ∧
    (fuzzyFind itemNorm m = none ↔
      ∀ p ∈ m, fuzzyQualifies itemNorm p.1 →
        fracLt (4, 5) (keyRatio itemNorm p.1) = false) := by
  constructor
  · intro loc
    unfold fuzzyFind
    rw [fuzzyFold_some_iff itemNorm m (4, 5) none loc (by norm_num) (by decide)]
    simp
  · unfold fuzzyFind
    rw [fuzzyFold_none_iff itemNorm m (4, 5) none (by norm_num) (by decide)]
    simp

/-! ## C9 — content-density fallback -/

theorem maxStep_foldl_spec (t : List (Nat × Nat)) :
    ∀ (cur r : Nat × Nat),
      (t.foldl maxStep cur = r ↔
        ((r = cur ∧ ∀ p ∈ t, p.2 ≤ cur.2) ∨
          (∃ l1 l2, t = l1 ++ r :: l2 ∧ cur.2 < r.2 ∧
            (∀ p ∈ l1, p.2 < r.2) ∧ (∀ p ∈ l2, p.2 ≤ r.2)))) := by
  induction t with
  | nil =>
    intro cur r
    simp only [List.foldl_nil]
    constructor
    · intro h
      exact Or.inl ⟨h.symm, fun p hp => absurd hp (List.not_mem_nil p)⟩
    · rintro (⟨h, _⟩ | ⟨l1, l2, heq, _⟩)
      · exact h.symm
      · exact absurd heq (by simp)
  | cons x t ih =>
    intro cur r
    rw [List.foldl_cons]
    by_cases hx : x.2 > cur.2
    · rw [show maxStep cur x = x from by unfold maxStep; rw [if_pos hx], ih x r]
      constructor
      · rintro (⟨rfl, hall⟩ | ⟨l1, l2, heq, hlt, hearlier, hlater⟩)
        · exact Or.inr ⟨[], t, rfl, hx, by simp, hall⟩
        · refine Or.inr ⟨x :: l1, l2, by simp [heq], Nat.lt_trans hx hlt, ?_, hlater⟩
          intro p hp
          rcases List.mem_cons.mp hp with rfl | hp
          · exact hlt
          · exact hearlier p hp
      · rintro (⟨rfl, hall⟩ | ⟨l1, l2, heq, hlt, hearlier, hlater⟩)
        · exact absurd hx (by have := hall x (List.mem_cons_self _ _); omega)
        · cases l1 with
          | nil =>
            simp only [List.nil_append, List.cons.injEq] at heq
            obtain ⟨rfl, rfl⟩ := heq
            exact Or.inl ⟨rfl, hlater⟩
          | cons hd l1t =>
            simp only [List.cons_append, List.cons.injEq] at heq
            obtain ⟨rfl, ht⟩ := heq
            refine Or.inr ⟨l1t, l2, ht, hearlier x (List.mem_cons_self _ _), ?_, hlater⟩
            intro p hp
            exact hearlier p (List.mem_cons_of_mem _ hp)
    · rw [show maxStep cur x = cur from by unfold maxStep; rw [if_neg hx], ih cur r]
      have hxle : x.2 ≤ cur.2 := Nat.not_lt.mp hx
      constructor
      · rintro (⟨rfl, hall⟩ | ⟨l1, l2, heq, hlt, hearlier, hlater⟩)
        · refine Or.inl ⟨rfl, ?_⟩
          intro p hp
          rcases List.mem_cons.mp hp with rfl | hp
          · exact hxle
          · exact hall p hp
        · refine Or.inr ⟨x :: l1, l2, by simp [heq], hlt, ?_, hlater⟩
          intro p hp
          rcases List.mem_cons.mp hp with rfl | hp
          · omega
          · exact hearlier p hp
      · rintro (⟨rfl, hall⟩ | ⟨l1, l2, heq, hlt, hearlier, hlater⟩)
        · exact Or.inl ⟨rfl, fun p hp => hall p (List.mem_cons_of_mem _ hp)⟩
        · cases l1 with
          | nil =>
            simp only [List.nil_append, List.cons.injEq] at heq
            obtain ⟨rfl, rfl⟩ := heq
            omega
          | cons hd l1t =>
            simp only [List.cons_append, List.cons.injEq] at heq
            obtain ⟨rfl, ht⟩ := heq
            exact Or.inr ⟨l1t, l2, ht, hlt, fun p hp => hearlier p (List.mem_cons_of_mem _ hp), hlater⟩

/-- C9 (counterexample): the claim says detection succeeds as soon as the
densest column has at least 3 qualifying cells; with exactly 3 such cells
(`text_counts = [(1, 3)]`) the code's `if text_counts[name_column] > 3`
fails and the fallback returns no columns. -/
theorem densityFallback_rejects_three_cells :
    textCounts densitySheet3 = [(1, 3)] ∧ densityFallback densitySheet3 = none := by
  decide

/-- C9 (amended): the content-density fallback succeeds iff some scanned
column has *strictly more than 3* cells of stripped text longer than 5
characters (at least 4, not the claimed "at least 3"); when it succeeds it
returns the column attaining the maximal qualifying-cell count — the first
such column on ties — and designates the next column for codes; otherwise
detection fails and the sheet is not processed. -/
theorem densityFallback_spec (sh : Sheet) :
    (densityFallback sh = none ↔ ∀ q ∈ textCounts sh, q.2 ≤ 3) ∧
    (∀ p, densityFallback sh = some p →
      ∃ nc cnt l1 l2, p = (nc, nc + 1) ∧
        textCounts sh = l1 ++ (nc, cnt) :: l2 ∧ 3 < cnt ∧
        (∀ q ∈ l1, q.2 < cnt) ∧ (∀ q ∈ l2, q.2 ≤ cnt)) := by
  constructor
  · unfold densityFallback pyMaxBySnd
    cases htc : textCounts sh with
    | nil => simp
    | cons h0 t0 =>
      simp only []
      have hfold := maxStep_foldl_spec t0 h0 (t0.foldl maxStep h0)
      rw [iff_true_intro rfl, true_iff] at hfold
      set w := t0.foldl maxStep h0 with hw
      have hmax : ∀ q ∈ h0 :: t0, q.2 ≤ w.2 := by
        rcases hfold with ⟨hwc, hall⟩ | ⟨l1, l2, heq, hlt, hearlier, hlater⟩
        · intro q hq
          rcases List.mem_cons.mp hq with rfl | hq
          · rw [hwc]
          · rw [hwc]
            exact hall q hq
        · intro q hq
          rcases List.mem_cons.mp hq with rfl | hq
          · omega
          · rw [heq] at hq
            rcases List.mem_append.mp hq with hq | hq
            · exact Nat.le_of_lt (hearlier q hq)
            · rcases List.mem_cons.mp hq with rfl | hq
              · exact Nat.le_refl _
              · exact hlater q hq
      have hwmem : w ∈ h0 :: t0 := by
        rcases hfold with ⟨hwc, _⟩ | ⟨l1, l2, heq, _, _, _⟩
        · rw [hwc]
          exact List.mem_cons_self _ _
        · rw [heq]
          exact List.mem_cons_of_mem _ (List.mem_append_right _ (List.mem_cons_self _ _))
      by_cases hgt : w.2 > 3
      · rw [if_pos hgt]
        constructor
        · intro h
          cases h
        · intro hall
          exact absurd hgt (by have := hall w hwmem; omega)
      · rw [if_neg hgt]
        simp only [true_iff]
        intro q hq
        have := hmax q hq
        omega
  · intro p
    unfold densityFallback pyMaxBySnd
    cases htc : textCounts sh with
    | nil =>
      intro h
      cases h
    | cons h0 t0 =>
      simp only []
      have hfold := maxStep_foldl_spec t0 h0 (t0.foldl maxStep h0)
      rw [iff_true_intro rfl, true_iff] at hfold
      set w := t0.foldl maxStep h0 with hw
      intro hsome
      by_cases hgt : w.2 > 3
      · rw [if_pos hgt] at hsome
        cases hsome
        rcases hfold with ⟨hwc, hall⟩ | ⟨l1, l2, heq, hlt, hearlier, hlater⟩
        · refine ⟨w.1, w.2, [], t0, rfl, ?_, hgt, by simp, ?_⟩
          · rw [hwc]
            simp
          · intro q hq
            rw [hwc]
            exact hall q hq
        · refine ⟨w.1, w.2, h0 :: l1, l2, rfl, by simp [heq], hgt, ?_, hlater⟩
          intro q hq
          rcases List.mem_cons.mp hq with rfl | hq
          · omega
          · exact hearlier q hq
      · rw [if_neg hgt] at hsome
        cases hsome

/-! ## C8 — cooperative cancellation -/

theorem processGroupsAux_spec {σ α : Type} (upd : σ → α → σ) (flag : Nat → Bool) :
    ∀ (groups : List α) (i : Nat) (st : σ),
      ∃ k, k ≤ groups.length ∧
        processGroupsAux upd flag i st groups = (groups.take k).foldl upd st ∧
        (∀ j, j < k → flag (i + j) = false) ∧
        (k < groups.length → flag (i + k) = true) := by
  intro groups
  induction groups with
  | nil =>
    intro i st
    exact ⟨0, Nat.le_refl _, rfl, fun j hj => absurd hj (Nat.not_lt_zero j),
      fun h => absurd h (Nat.not_lt_zero 0)⟩
  | cons g gs ih =>
    intro i st
    rw [processGroupsAux]
    by_cases hf : flag i = true
    · rw [if_pos hf]
      refine ⟨0, Nat.zero_le _, rfl, fun j hj => absurd hj (Nat.not_lt_zero j), fun _ => ?_⟩
      rw [Nat.add_zero]
      exact hf
    · rw [if_neg hf]
      obtain ⟨k, hk, heq, hfalse, hstop⟩ := ih (i + 1) (upd st g)
      refine ⟨k + 1, by simpa using hk, ?_, ?_, ?_⟩
      · rw [List.take_succ_cons, List.foldl_cons]
        exact heq
      · intro j hj
        cases j with
        | zero =>
          rw [Nat.add_zero]
          exact Bool.eq_false_iff.mpr hf
        | succ n =>
          have : i + (n + 1) = (i + 1) + n := by omega
          rw [this]
          exact hfalse n (by omega)
      · intro hlt
        have : i + (k + 1) = (i + 1) + k := by omega
        rw [this]
        exact hstop (by simpa using hlt)

/-- C8: cancellation is cooperative at group granularity: the classifying
loop runs exactly some prefix of `k` groups, each started only after
observing an unset flag at its boundary (so once the flag is set no group
at or past that boundary is ever started), it stops exactly at the first
set boundary (if any group remains), and the accumulated state is the fold
of the loop body over the completed prefix — the results of groups
completed before the cancellation check are retained, and a group's body,
once entered, runs to completion (the flag is only read between groups). -/
theorem processGroups_cancellation {σ α : Type} (upd : σ → α → σ)
    (flag : Nat → Bool) (groups : List α) (init : σ) :
    ∃ k, k ≤ groups.length ∧
      processGroups upd flag groups init = (groups.take k).foldl upd init ∧
      (∀ j, j < k → flag (1 + j) = false) ∧
      (k < groups.length → flag (1 + k) = true) ∧
      (∀ m, 1 ≤ m → flag m = true → ∀ j, j < groups.length → m ≤ 1 + j → k ≤ j) := by
  obtain ⟨k, hk, heq, hfalse, hstop⟩ := processGroupsAux_spec upd flag groups 1 init
  refine ⟨k, hk, heq, hfalse, hstop, ?_⟩
  intro m hm hflag j _ hmj
  by_contra hc
  rw [Nat.not_le] at hc
  have : flag (1 + (m - 1)) = false := hfalse (m - 1) (by omega)
  have hmm : 1 + (m - 1) = m := by omega
  rw [hmm] at this
  rw [hflag] at this
  cases this

/-! ## C10 — totality of the batch classification lookup -/

theorem dinsert_lookup {β : Type} (l : List (String × β)) (k k' : String) (v : β) :
    (dinsert l k v).lookup k' = if k' = k then some v else l.lookup k' := by
  induction l with
  | nil =>
    rw [dinsert]
    by_cases h : k' = k
    · subst h
      simp [List.lookup]
    · have hbe : (k' == k) = false := beq_eq_false_iff_ne.mpr h
      simp [List.lookup, h, hbe]
  | cons kv t ih =>
    obtain ⟨k1, v1⟩ := kv
    rw [dinsert]
    by_cases h1 : k1 = k
    · subst h1
      rw [if_pos rfl]
      by_cases h2 : k' = k1
      · subst h2
        simp [List.lookup]
      · have hbe : (k' == k1) = false := beq_eq_false_iff_ne.mpr h2
        simp [List.lookup, h2, hbe]
    · rw [if_neg h1]
      by_cases h2 : k' = k1
      · subst h2
        simp [List.lookup, h1]
      · have hbe : (k' == k1) = false := beq_eq_false_iff_ne.mpr h2
        simp [List.lookup, h2, hbe, ih]

/-- Lookups of the cache-hit pass reproduce cache entries. -/
theorem cacheHits_lookup_sub (cache : List (String × List OkpdEntry))
    (terms : List String) :
    ∀ (res : List (String × List OkpdEntry)),
      (∀ t es, res.lookup t = some es → cache.lookup t = some es) →
      ∀ t es,
        (terms.foldl (fun res term =>
          match cache.lookup term with
          | some entries => dinsert res term entries
          | none => res) res).lookup t = some es → cache.lookup t = some es := by
  induction terms with
  | nil => intro res hres t es h; exact hres t es h
  | cons x ts ih =>
    intro res hres t es
    rw [List.foldl_cons]
    cases hx : cache.lookup x with
    | none =>
      exact ih res hres t es
    | some exs =>
      refine ih _ ?_ t es
      intro t' es' h'
      rw [dinsert_lookup] at h'
      by_cases ht' : t' = x
      · subst ht'
        rw [if_pos rfl] at h'
        cases h'
        exact hx
      · rw [if_neg ht'] at h'
        exact hres t' es' h'

/-- Lookup after unconditionally refreshing every term of `l` with `f`. -/
theorem foldl_dinsert_lookup (f : String → List OkpdEntry) (l : List String) :
    ∀ (res : List (String × List OkpdEntry)) (t : String),
      (l.foldl (fun r term => dinsert r term (f term)) res).lookup t =
        if t ∈ l then some (f t) else res.lookup t := by
  induction l with
  | nil => intro res t; simp
  | cons x ts ih =>
    intro res t
    rw [List.foldl_cons, ih, dinsert_lookup]
    by_cases hmem : t ∈ ts
    · rw [if_pos hmem, if_pos (List.mem_cons_of_mem _ hmem)]
    · rw [if_neg hmem]
      by_cases hx : t = x
      · subst hx
        rw [if_pos rfl, if_pos (List.mem_cons_self _ _)]
      · rw [if_neg hx, if_neg (by
          intro hc
          rcases List.mem_cons.mp hc with h | h
          · exact hx h
          · exact hmem h)]

/-- Lookup after the guarded fallback pass of the browser-error path. -/
theorem foldl_guarded_fallback_lookup (l : List String) :
    ∀ (res : List (String × List OkpdEntry)) (t : String),
      ((l.foldl (fun res term =>
        if (res.lookup term).isNone then dinsert res term fallbackEntries else res) res).lookup t) =
        if t ∈ l ∧ res.lookup t = none then some fallbackEntries else res.lookup t := by
  induction l with
  | nil => intro res t; simp
  | cons x ts ih =>
    intro res t
    rw [List.foldl_cons]
    by_cases hx : (res.lookup x).isNone
    · rw [if_pos hx, ih, dinsert_lookup]
      by_cases ht : t = x
      · subst ht
        rw [Option.isNone_iff_eq_none] at hx
        rw [if_pos rfl, if_neg (by simp), if_pos ⟨List.mem_cons_self _ _, hx⟩]
      · rw [if_neg ht]
        by_cases hc : t ∈ ts ∧ res.lookup t = none
        · rw [if_pos hc, if_pos ⟨List.mem_cons_of_mem _ hc.1, hc.2⟩]
        · rw [if_neg hc, if_neg (by
            rintro ⟨hmem, hnone⟩
            rcases List.mem_cons.mp hmem with h | h
            · exact ht h
            · exact hc ⟨h, hnone⟩)]
    · rw [if_neg hx, ih]
      by_cases hc : t ∈ ts ∧ res.lookup t = none
      · rw [if_pos hc, if_pos ⟨List.mem_cons_of_mem _ hc.1, hc.2⟩]
      · rw [if_neg hc, if_neg (by
          rintro ⟨hmem, hnone⟩
          rcases List.mem_cons.mp hmem with h | h
          · subst h
            rw [Option.isNone_iff_eq_none] at hx
            exact hx hnone
          · exact hc ⟨h, hnone⟩)]

theorem fallbackEntries_ne_nil : fallbackEntries ≠ [] := by
  unfold fallbackEntries
  simp

theorem fetchOneTerm_ne_nil (scrape : String → Except Unit (List OkpdEntry))
    (term : String) : fetchOneTerm scrape term ≠ [] := by
  cases h : scrape term with
  | ok items =>
    have heq : fetchOneTerm scrape term =
        if items.isEmpty then fallbackEntries else items := by
      unfold fetchOneTerm
      rw [h]
    rw [heq]
    by_cases hi : items.isEmpty
    · rw [if_pos hi]
      exact fallbackEntries_ne_nil
    · rw [if_neg hi]
      intro hc
      rw [hc] at hi
      exact hi rfl
  | error e =>
    have heq : fetchOneTerm scrape term = fallbackEntries := by
      unfold fetchOneTerm
      rw [h]
    rw [heq]
    exact fallbackEntries_ne_nil

/-- C10: `fetch_okpd2_batch` is total — every input term ends up bound to
a non-empty list of entries, because every failure path (cache miss plus
fetch error, empty scrape, browser launch error, missing playwright)
substitutes the fixed fallback entry.  `hcache` is the cache invariant the
module maintains itself: it never stores an empty entry list. -/
theorem fetch_okpd2_batch_total (env : FetchEnv) (terms : List String)
    (hcache : ∀ p ∈ env.cache, p.2 ≠ []) :
    ∀ t ∈ terms, ∃ es, (fetch_okpd2_batch env terms).lookup t = some es ∧ es ≠ [] := by
  intro t ht
  have hsub : ∀ t' es, (cacheHitsPass env.cache terms).lookup t' = some es →
      env.cache.lookup t' = some es := by
    refine cacheHits_lookup_sub env.cache terms [] ?_
    intro t' es h
    simp [List.lookup] at h
  have hnonempty_of_some : ∀ t' es,
      (cacheHitsPass env.cache terms).lookup t' = some es → es ≠ [] := by
    intro t' es h
    have hc := hsub t' es h
    exact hcache (t', es) (lookup_mem hc)
  simp only [fetch_okpd2_batch]
  by_cases hempty :
      (terms.filter (fun t => ((cacheHitsPass env.cache terms).lookup t).isNone)).isEmpty
  · rw [if_pos hempty]
    cases hlk : (cacheHitsPass env.cache terms).lookup t with
    | some es => exact ⟨es, rfl, hnonempty_of_some t es hlk⟩
    | none =>
      have hmem : t ∈ terms.filter
          (fun t => ((cacheHitsPass env.cache terms).lookup t).isNone) :=
        List.mem_filter.mpr ⟨ht, by simp [hlk]⟩
      rw [List.isEmpty_iff] at hempty
      rw [hempty] at hmem
      cases hmem
  · rw [if_neg hempty]
    cases hbr : env.browser with
    | ok scrape =>
      rw [foldl_dinsert_lookup]
      by_cases hmem : t ∈ terms.filter
          (fun t => ((cacheHitsPass env.cache terms).lookup t).isNone)
      · rw [if_pos hmem]
        exact ⟨fetchOneTerm scrape t, rfl, fetchOneTerm_ne_nil scrape t⟩
      · rw [if_neg hmem]
        cases hlk : (cacheHitsPass env.cache terms).lookup t with
        | some es => exact ⟨es, rfl, hnonempty_of_some t es hlk⟩
        | none =>
          exact absurd (List.mem_filter.mpr ⟨ht, by simp [hlk]⟩) hmem
    | error e =>
      rw [foldl_guarded_fallback_lookup]
      by_cases hmem : t ∈ terms.filter
          (fun t => ((cacheHitsPass env.cache terms).lookup t).isNone)
      · have hnone : (cacheHitsPass env.cache terms).lookup t = none := by
          have := (List.mem_filter.mp hmem).2
          simpa using this
        rw [if_pos ⟨hmem, hnone⟩]
        exact ⟨fallbackEntries, rfl, fallbackEntries_ne_nil⟩
      · cases hlk : (cacheHitsPass env.cache terms).lookup t with
        | some es =>
          rw [if_neg (by
            rintro ⟨_, hnone⟩
            cases hnone)]
          exact ⟨es, rfl, hnonempty_of_some t es hlk⟩
        | none =>
          exact absurd (List.mem_filter.mpr ⟨ht, by simp [hlk]⟩) hmem

/-- C10 (witness): a concrete run — cached term `"a"`, uncached `"b"`,
playwright unavailable — both terms come back bound to non-empty entries. -/
theorem fetch_okpd2_batch_total_witness :
    ∃ es, (fetch_okpd2_batch ⟨[("a", [⟨"1", "x"⟩])], .error ()⟩ ["a", "b"]).lookup "b" =
      some es ∧ es ≠ [] :=
  fetch_okpd2_batch_total ⟨[("a", [⟨"1", "x"⟩])], .error ()⟩ ["a", "b"]
    (by decide) "b" (by decide)

/-! ## C7 — checkpoint save strategy -/

theorem lookup_append_single_ne {β : Type} (l : List (String × β)) {k k' : String}
    (v : β) (h : k' ≠ k) : (l ++ [(k, v)]).lookup k' = l.lookup k' := by
  induction l with
  | nil =>
    have hbe : (k' == k) = false := beq_eq_false_iff_ne.mpr h
    simp [List.lookup, hbe]
  | cons kv t ih =>
    obtain ⟨k1, v1⟩ := kv
    by_cases h1 : k' = k1
    · subst h1
      simp [List.lookup]
    · have hbe : (k' == k1) = false := beq_eq_false_iff_ne.mpr h1
      simp [List.lookup, hbe, ih]

theorem lookup_append_single_self {β : Type} (l : List (String × β)) {k : String}
    (v : β) (h : l.lookup k = none) : (l ++ [(k, v)]).lookup k = some v := by
  induction l with
  | nil => simp [List.lookup]
  | cons kv t ih =>
    obtain ⟨k1, v1⟩ := kv
    by_cases h1 : k = k1
    · subst h1
      simp [List.lookup] at h
    · have hbe : (k == k1) = false := beq_eq_false_iff_ne.mpr h1
      simp only [List.lookup, hbe] at h
      simp [List.lookup, hbe, ih h]

/-- `if_sheet_exists='replace'` keeps every other sheet unchanged. -/
theorem replaceSheet_lookup_other {α : Type} (file : CkFile α) (name s : String)
    (d : α) (h : s ≠ name) : (replaceSheet file name d).lookup s = file.lookup s := by
  unfold replaceSheet
  by_cases hp : (file.lookup name).isSome
  · rw [if_pos hp, dinsert_lookup, if_neg h]
  · rw [if_neg hp, lookup_append_single_ne _ _ h]

/-- The target sheet carries the saved data afterwards. -/
theorem replaceSheet_lookup_self {α : Type} (file : CkFile α) (name : String)
    (d : α) : (replaceSheet file name d).lookup name = some d := by
  unfold replaceSheet
  by_cases hp : (file.lookup name).isSome
  · rw [if_pos hp, dinsert_lookup, if_pos rfl]
  · rw [if_neg hp]
    rw [Option.not_isSome_iff_eq_none] at hp
    exact lookup_append_single_self _ _ hp

/-- C7: the checkpoint save strategy: when the checkpoint file exists, the
write replaces only the target sheet (the saved data lands under the
target sheet name, every other sheet reads back unchanged) and no other
path changes; when it does not exist, a fresh single-sheet file is
created; and when the write raises, the data is instead written to the
path `<name>.backup.xlsx` (as a fresh default-named sheet), again leaving
all other paths unchanged. -/
theorem save_checkpoint_spec {α : Type} (fs : FsState α) (ckName sheetName : String)
    (d : α) (writeFails backupFails : Bool) :
    (writeFails = false → ∀ file, fs ckName = some file →
      ∃ file', (save_checkpoint fs ckName sheetName (some d) writeFails backupFails).1 ckName =
          some file' ∧
        file'.lookup sheetName = some d ∧
        (∀ s, s ≠ sheetName → file'.lookup s = file.lookup s) ∧
        (∀ p, p ≠ ckName →
          (save_checkpoint fs ckName sheetName (some d) writeFails backupFails).1 p = fs p)) ∧
    (writeFails = false → fs ckName = none →
      (save_checkpoint fs ckName sheetName (some d) writeFails backupFails).1 ckName =
        some [(sheetName, d)] ∧
      (∀ p, p ≠ ckName →
        (save_checkpoint fs ckName sheetName (some d) writeFails backupFails).1 p = fs p)) ∧
    (writeFails = true → backupFails = false →
      (save_checkpoint fs ckName sheetName (some d) writeFails backupFails).1
          (ckName ++ ".backup.xlsx") = some [("Sheet1", d)] ∧
      (∀ p, p ≠ ckName ++ ".backup.xlsx" →
        (save_checkpoint fs ckName sheetName (some d) writeFails backupFails).1 p = fs p)) := by
  refine ⟨?_, ?_, ?_⟩
  · intro hwf file hfile
    subst hwf
    have heq : save_checkpoint fs ckName sheetName (some d) false backupFails =
        (fun p => if p = ckName then some (replaceSheet file sheetName d) else fs p, true) := by
      unfold save_checkpoint
      rw [hfile]
      rfl
    rw [heq]
    refine ⟨replaceSheet file sheetName d, by simp, replaceSheet_lookup_self _ _ _,
      fun s hs => replaceSheet_lookup_other _ _ _ _ hs, ?_⟩
    intro p hp
    simp [hp]
  · intro hwf hnone
    subst hwf
    have heq : save_checkpoint fs ckName sheetName (some d) false backupFails =
        (fun p => if p = ckName then some [(sheetName, d)] else fs p, true) := by
      unfold save_checkpoint
      rw [hnone]
      rfl
    rw [heq]
    refine ⟨by simp, ?_⟩
    intro p hp
    simp [hp]
  · intro hwf hbf
    subst hwf
    subst hbf
    have heq : save_checkpoint fs ckName sheetName (some d) true false =
        (fun p => if p = ckName ++ ".backup.xlsx" then some [("Sheet1", d)] else fs p, true) := by
      unfold save_checkpoint
      rfl
    rw [heq]
    refine ⟨by simp, ?_⟩
    intro p hp
    simp [hp]

/-- C7 (witness): a concrete save over an existing two-sheet checkpoint
file replaces sheet `"B"` with the new data and leaves sheet `"A"` and
every other path untouched. -/
theorem save_checkpoint_spec_witness :
    ∃ file', (save_checkpoint
        (fun p => if p = "ck.xlsx" then some [("A", 1), ("B", 2)] else none)
        "ck.xlsx" "B" (some (7 : Nat)) false false).1 "ck.xlsx" = some file' ∧
      file'.lookup "B" = some 7 ∧
      (∀ s, s ≠ "B" → file'.lookup s =
        ([("A", 1), ("B", 2)] : CkFile Nat).lookup s) ∧
      (∀ p, p ≠ "ck.xlsx" → (save_checkpoint
        (fun p => if p = "ck.xlsx" then some [("A", 1), ("B", 2)] else none)
        "ck.xlsx" "B" (some (7 : Nat)) false false).1 p =
          (fun p => if p = "ck.xlsx" then some [("A", 1), ("B", 2)] else none : FsState Nat) p) :=
  ((save_checkpoint_spec
      (fun p => if p = "ck.xlsx" then some [("A", 1), ("B", 2)] else none)
      "ck.xlsx" "B" 7 false false).1) rfl [("A", 1), ("B", 2)] (by decide)

/-! ## C1 / C6 — write-back cell lemmas -/

theorem modEl_length {α : Type} (l : List α) (n : Nat) (f : α → α) :
    (modEl l n f).length = l.length := by
  induction l generalizing n with
  | nil => rfl
  | cons x t ih =>
    cases n with
    | zero => rfl
    | succ m => simp [modEl, ih]

theorem get?_modEl_self {α : Type} (l : List α) (n : Nat) (f : α → α) :
    (modEl l n f).get? n = (l.get? n).map f := by
  induction l generalizing n with
  | nil => cases n <;> rfl
  | cons x t ih =>
    cases n with
    | zero => rfl
    | succ m => simpa [modEl] using ih m

theorem get?_modEl_other {α : Type} (l : List α) {n m : Nat} (f : α → α)
    (h : m ≠ n) : (modEl l n f).get? m = l.get? m := by
  induction l generalizing n m with
  | nil => cases n <;> rfl
  | cons x t ih =>
    cases n with
    | zero =>
      cases m with
      | zero => exact absurd rfl h
      | succ m' => rfl
    | succ n' =>
      cases m with
      | zero => rfl
      | succ m' => simpa [modEl] using ih (by omega)

theorem writeSheet_title (sh : Sheet) (row col : Nat) (code : String) :
    (writeSheet sh row col code).title = sh.title := by
  unfold writeSheet
  by_cases hf : (sh.cells row col).isFormula
  · rw [if_pos hf]
  · rw [if_neg hf]

theorem writeSheet_maxRow (sh : Sheet) (row col : Nat) (code : String) :
    (writeSheet sh row col code).maxRow = sh.maxRow := by
  unfold writeSheet
  by_cases hf : (sh.cells row col).isFormula
  · rw [if_pos hf]
  · rw [if_neg hf]

theorem writeSheet_maxCol (sh : Sheet) (row col : Nat) (code : String) :
    (writeSheet sh row col code).maxCol = sh.maxCol := by
  unfold writeSheet
  by_cases hf : (sh.cells row col).isFormula
  · rw [if_pos hf]
  · rw [if_neg hf]

theorem writeSheet_cells_target (sh : Sheet) (row col : Nat) (code : String) :
    (writeSheet sh row col code).cells row col =
      cellWriteStep (sh.cells row col) code := by
  unfold writeSheet cellWriteStep
  by_cases hf : (sh.cells row col).isFormula
  · rw [if_pos hf, if_pos hf]
  · rw [if_neg hf, if_neg hf]
    simp

theorem writeSheet_cells_other (sh : Sheet) {row col r c : Nat} (code : String)
    (h : r ≠ row ∨ c ≠ col) :
    (writeSheet sh row col code).cells r c = sh.cells r c := by
  unfold writeSheet
  by_cases hf : (sh.cells row col).isFormula
  · rw [if_pos hf]
  · rw [if_neg hf]
    simp only []
    rw [if_neg (by
      rintro ⟨rfl, rfl⟩
      rcases h with h | h
      · exact h rfl
      · exact h rfl)]

theorem get?_writeOne_self (wb : Workbook) {si : Nat} {sh : Sheet}
    (row col : Nat) (code : String) (hget : wb.get? si = some sh) :
    (writeOne wb si row col code).get? si = some (writeSheet sh row col code) := by
  unfold writeOne
  rw [get?_modEl_self, hget]
  rfl

theorem cellAt_eq_of_get? {wb : Workbook} {si : Nat} {sh : Sheet}
    (hget : wb.get? si = some sh) (r c : Nat) : cellAt wb si r c = sh.cells r c := by
  unfold cellAt
  rw [hget]

theorem cellAt_eq_of_get?_none {wb : Workbook} {si : Nat}
    (hget : wb.get? si = none) (r c : Nat) : cellAt wb si r c = .vNone := by
  unfold cellAt
  rw [hget]

theorem cellAt_writeOne_target (wb : Workbook) {si row col : Nat} (code : String)
    (h : si < wb.length) :
    cellAt (writeOne wb si row col code) si row col =
      cellWriteStep (cellAt wb si row col) code := by
  cases hget : wb.get? si with
  | none =>
    rw [List.get?_eq_none] at hget
    omega
  | some sh =>
    rw [cellAt_eq_of_get? (get?_writeOne_self wb row col code hget),
      cellAt_eq_of_get? hget]
    exact writeSheet_cells_target sh row col code

theorem cellAt_writeOne_other (wb : Workbook) {si row col si' r c : Nat} (code : String)
    (h : si' ≠ si ∨ r ≠ row ∨ c ≠ col) :
    cellAt (writeOne wb si row col code) si' r c = cellAt wb si' r c := by
  by_cases hsi : si' = si
  · subst hsi
    cases hget : wb.get? si' with
    | none =>
      have hres : (writeOne wb si' row col code).get? si' = none := by
        unfold writeOne
        rw [get?_modEl_self, hget]
        rfl
      rw [cellAt_eq_of_get?_none hres, cellAt_eq_of_get?_none hget]
    | some sh =>
      rw [cellAt_eq_of_get? (get?_writeOne_self wb row col code hget),
        cellAt_eq_of_get? hget]
      refine writeSheet_cells_other sh code ?_
      rcases h with h | h | h
      · exact absurd rfl h
      · exact Or.inl h
      · exact Or.inr h
  · unfold cellAt writeOne
    rw [get?_modEl_other _ _ hsi]

theorem writeOne_length (wb : Workbook) (si row col : Nat) (code : String) :
    (writeOne wb si row col code).length = wb.length :=
  modEl_length wb si _

/-- A guarded write never changes a cell currently holding a formula. -/
theorem writeOne_preserves_formula (wb : Workbook) {si' r c : Nat}
    (si row col : Nat) (code : String)
    (h : (cellAt wb si' r c).isFormula = true) :
    cellAt (writeOne wb si row col code) si' r c = cellAt wb si' r c := by
  by_cases htar : si' = si ∧ r = row ∧ c = col
  · obtain ⟨rfl, rfl, rfl⟩ := htar
    by_cases hlen : si' < wb.length
    · rw [cellAt_writeOne_target wb code hlen]
      unfold cellWriteStep
      rw [if_pos h]
    · unfold writeOne cellAt
      rw [get?_modEl_self]
      cases hget : wb.get? si' with
      | none => rfl
      | some sh =>
        rw [List.get?_eq_some] at hget
        obtain ⟨hl, _⟩ := hget
        omega
  · refine cellAt_writeOne_other wb code ?_
    by_cases h1 : si' = si
    · by_cases h2 : r = row
      · exact Or.inr (Or.inr fun hc => htar ⟨h1, h2, hc⟩)
      · exact Or.inr (Or.inl h2)
    · exact Or.inl h1

/-- C1 (counterexample): the claim covers "every processor variant that
performs write-back", but `StandardProcessor._update_excel_with_codes`
has no formula guard: with the code column holding the formula
`=SUM(A1:A3)` in the target row, the write replaces it with the code. -/
theorem standardUpdate_overwrites_formula :
    (cellAt [stdCexSheet] 0 2 2).isFormula = true ∧
    cellAt (standardUpdate [stdCexSheet] 0 (some 2)
      [(1, ⟨"25.94.11", "Болты", ""⟩)]) 0 2 2 = .vStr "25.94.11" := by
  decide

/-- The write-back's per-result update preserves every formula cell. -/
theorem foldl_writeBackStep_preserves_formula
    (m : List (String × (Nat × Nat))) (cci : Option Nat)
    (results : List UpdateData) (si r c : Nat) :
    ∀ wb : Workbook, (cellAt wb si r c).isFormula = true →
      cellAt (results.foldl (writeBackStep m cci) wb) si r c = cellAt wb si r c := by
  induction results with
  | nil => intro wb _; rfl
  | cons d rest ih =>
    intro wb h
    rw [List.foldl_cons]
    have hstep : ∀ wb', (cellAt wb' si r c).isFormula = true →
        cellAt (writeBackStep m cci wb' d) si r c = cellAt wb' si r c := by
      intro wb' h'
      unfold writeBackStep
      cases resolveCol d.columnName cci with
      | none => rfl
      | some col =>
        simp only []
        by_cases hc0 : col = 0
        · rw [if_pos hc0]
        · rw [if_neg hc0]
          cases matchItem m (normalizeCellText d.item) with
          | none => rfl
          | some loc =>
            obtain ⟨si2, row2⟩ := loc
            exact writeOne_preserves_formula wb' si2 row2 col d.code h'
    have h2 : (cellAt (writeBackStep m cci wb d) si r c).isFormula = true := by
      rw [hstep wb h]
      exact h
    rw [ih (writeBackStep m cci wb d) h2, hstep wb h]

/-- C1 (amended): the matching write-back shared by `Format41Processor`
and `FullFormatProcessor` never changes a cell whose existing value is a
string starting with `=`: whenever the matched target cell holds a
formula the write is skipped, and such a cell's value after write-back
equals its value before, regardless of match confidence.
`StandardProcessor`'s write-back, by contrast, writes unconditionally
(see the counterexample). -/
theorem format41Update_preserves_formulas (wb : Workbook) (cur nameCol : Nat)
    (cci : Option Nat) (results : List UpdateData) (si r c : Nat)
    (h : (cellAt wb si r c).isFormula = true) :
    cellAt (format41Update wb cur nameCol cci results) si r c = cellAt wb si r c := by
  unfold format41Update
  exact foldl_writeBackStep_preserves_formula _ cci results si r c wb h

/-- C1 (witness): a concrete workbook whose code cell holds `=A1*2` next
to a matched item text keeps the formula through the write-back. -/
theorem format41Update_preserves_formulas_witness :
    (cellAt [fmtWitnessSheet] 0 1 2).isFormula = true ∧
    cellAt (format41Update [fmtWitnessSheet] 0 1 none
        [⟨"77", .inl 1, "bolt item x"⟩]) 0 1 2 = cellAt [fmtWitnessSheet] 0 1 2 :=
  ⟨by decide, format41Update_preserves_formulas [fmtWitnessSheet] 0 1 none
    [⟨"77", .inl 1, "bolt item x"⟩] 0 1 2 (by decide)⟩

/-! ## C6 — idempotence of the matching write-back -/

theorem foldl_writeBackStep_eq_applyWrites (m : List (String × (Nat × Nat)))
    (cci : Option Nat) (results : List UpdateData) :
    ∀ wb : Workbook,
      results.foldl (writeBackStep m cci) wb = applyWrites wb (writesOf m cci results) := by
  induction results with
  | nil => intro wb; rfl
  | cons d rest ih =>
    intro wb
    rw [List.foldl_cons]
    cases hres : resolveCol d.columnName cci with
    | none =>
      have h1 : writeBackStep m cci wb d = wb := by
        simp only [writeBackStep, hres]
      have h2 : writesOf m cci (d :: rest) = writesOf m cci rest := by
        simp only [writesOf, List.filterMap_cons, hres]
      rw [h1, h2]
      exact ih wb
    | some col =>
      by_cases hc0 : col = 0
      · have h1 : writeBackStep m cci wb d = wb := by
          simp only [writeBackStep, hres, if_pos hc0]
        have h2 : writesOf m cci (d :: rest) = writesOf m cci rest := by
          simp only [writesOf, List.filterMap_cons, hres, if_pos hc0]
        rw [h1, h2]
        exact ih wb
      · cases hmatch : matchItem m (normalizeCellText d.item) with
        | none =>
          have h1 : writeBackStep m cci wb d = wb := by
            simp only [writeBackStep, hres, if_neg hc0, hmatch]
          have h2 : writesOf m cci (d :: rest) = writesOf m cci rest := by
            simp only [writesOf, List.filterMap_cons, hres, if_neg hc0, hmatch]
          rw [h1, h2]
          exact ih wb
        | some loc =>
          obtain ⟨si, row⟩ := loc
          have h1 : writeBackStep m cci wb d = writeOne wb si row col d.code := by
            simp only [writeBackStep, hres, if_neg hc0, hmatch]
          have h2 : writesOf m cci (d :: rest) =
              ⟨si, row, col, d.code⟩ :: writesOf m cci rest := by
            simp only [writesOf, List.filterMap_cons, hres, if_neg hc0, hmatch]
          rw [h1, h2]
          exact ih (writeOne wb si row col d.code)

theorem format41Update_eq_applyWrites (wb : Workbook) (cur nameCol : Nat)
    (cci : Option Nat) (results : List UpdateData) :
    format41Update wb cur nameCol cci results =
      applyWrites wb (writesOf (buildMap wb (sheetsToSearch wb cur) nameCol) cci results) := by
  unfold format41Update
  exact foldl_writeBackStep_eq_applyWrites _ cci results wb

theorem cellWriteStep_formula_fix (cs : List String) :
    ∀ v : CellV, v.isFormula = true → cs.foldl cellWriteStep v = v := by
  induction cs with
  | nil => intro v _; rfl
  | cons c cs ih =>
    intro v hv
    rw [List.foldl_cons]
    have : cellWriteStep v c = v := by
      unfold cellWriteStep
      rw [if_pos hv]
    rw [this]
    exact ih v hv

theorem cellWriteStep_of_formula {v : CellV} (c : String) (h : v.isFormula = true) :
    cellWriteStep v c = v := by
  unfold cellWriteStep
  rw [if_pos h]

theorem cellWriteStep_of_not_formula {v : CellV} (c : String) (h : v.isFormula = false) :
    cellWriteStep v c = .vStr c := by
  unfold cellWriteStep
  rw [if_neg (by simp [h])]

/-- The per-cell write fold is idempotent. -/
theorem cellWriteStep_foldl_idem (cs : List String) :
    ∀ v : CellV, cs.foldl cellWriteStep (cs.foldl cellWriteStep v) = cs.foldl cellWriteStep v := by
  induction cs with
  | nil => intro v; rfl
  | cons c cs ih =>
    intro v
    rw [List.foldl_cons, List.foldl_cons]
    cases hw : (cs.foldl cellWriteStep (cellWriteStep v c)).isFormula with
    | true =>
      rw [cellWriteStep_of_formula c hw]
      exact cellWriteStep_formula_fix cs _ hw
    | false =>
      rw [cellWriteStep_of_not_formula c hw]
      cases hv : v.isFormula with
      | true =>
        have h2 := cellWriteStep_of_formula c hv
        rw [h2, cellWriteStep_formula_fix cs v hv, hv] at hw
        cases hw
      | false =>
        rw [cellWriteStep_of_not_formula c hv]

theorem applyWrites_length (ws : List WriteCmd) :
    ∀ wb : Workbook, (applyWrites wb ws).length = wb.length := by
  induction ws with
  | nil => intro wb; rfl
  | cons w ws ih =>
    intro wb
    show (applyWrites (writeOne wb w.si w.row w.col w.code) ws).length = _
    rw [ih, writeOne_length]

/-- The value of a cell after a write list is the per-cell fold of the
codes of the writes that target it. -/
theorem cellAt_applyWrites (ws : List WriteCmd) :
    ∀ (wb : Workbook) (si r c : Nat), (∀ w ∈ ws, w.si < wb.length) →
      cellAt (applyWrites wb ws) si r c =
        ((ws.filter (fun w => targets w si r c)).map (fun w => w.code)).foldl
          cellWriteStep (cellAt wb si r c) := by
  induction ws with
  | nil => intro wb si r c _; rfl
  | cons w ws ih =>
    intro wb si r c hvalid
    have hv2 : ∀ w2 ∈ ws, w2.si < (writeOne wb w.si w.row w.col w.code).length := by
      intro w2 hw2
      rw [writeOne_length]
      exact hvalid w2 (List.mem_cons_of_mem _ hw2)
    show cellAt (applyWrites (writeOne wb w.si w.row w.col w.code) ws) si r c = _
    rw [ih _ si r c hv2]
    by_cases ht : targets w si r c = true
    · have hts : w.si = si ∧ w.row = r ∧ w.col = c := by
        unfold targets at ht
        simp only [Bool.and_eq_true, beq_iff_eq] at ht
        exact ⟨ht.1.1, ht.1.2, ht.2⟩
      obtain ⟨h1, h2, h3⟩ := hts
      have hfil : List.filter (fun w2 => targets w2 si r c) (w :: ws) =
          w :: List.filter (fun w2 => targets w2 si r c) ws := by
        simp [List.filter_cons, ht]
      rw [hfil, List.map_cons, List.foldl_cons]
      have hcell : cellAt (writeOne wb w.si w.row w.col w.code) si r c =
          cellWriteStep (cellAt wb si r c) w.code := by
        subst h1
        subst h2
        subst h3
        exact cellAt_writeOne_target wb w.code (hvalid w (List.mem_cons_self _ _))
      rw [hcell]
    · have hfil : List.filter (fun w2 => targets w2 si r c) (w :: ws) =
          List.filter (fun w2 => targets w2 si r c) ws := by
        simp [List.filter_cons, ht]
      rw [hfil]
      have hcell : cellAt (writeOne wb w.si w.row w.col w.code) si r c =
          cellAt wb si r c := by
        refine cellAt_writeOne_other wb w.code ?_
        by_cases e1 : si = w.si
        · by_cases e2 : r = w.row
          · by_cases e3 : c = w.col
            · exact absurd (by
                unfold targets
                simp [e1, e2, e3]) ht
            · exact Or.inr (Or.inr e3)
          · exact Or.inr (Or.inl e2)
        · exact Or.inl e1
      rw [hcell]

/-- A cell targeted by no write of the list is unchanged. -/
theorem cellAt_applyWrites_untouched (ws : List WriteCmd) (wb : Workbook)
    (si r c : Nat) (hvalid : ∀ w ∈ ws, w.si < wb.length)
    (hno : ∀ w ∈ ws, ¬ targets w si r c = true) :
    cellAt (applyWrites wb ws) si r c = cellAt wb si r c := by
  rw [cellAt_applyWrites ws wb si r c hvalid]
  rw [List.filter_eq_nil_iff.mpr hno]
  rfl

/-- Writes keep every sheet-level attribute other than the cells. -/
theorem get?_applyWrites_proj {γ : Type} (f : Sheet → γ)
    (hf : ∀ sh row col code, f (writeSheet sh row col code) = f sh)
    (ws : List WriteCmd) :
    ∀ (wb : Workbook) (si : Nat),
      ((applyWrites wb ws).get? si).map f = (wb.get? si).map f := by
  induction ws with
  | nil => intro wb si; rfl
  | cons w ws ih =>
    intro wb si
    show ((applyWrites (writeOne wb w.si w.row w.col w.code) ws).get? si).map f = _
    rw [ih]
    by_cases hsi : si = w.si
    · subst hsi
      unfold writeOne
      rw [get?_modEl_self]
      cases hget : wb.get? w.si with
      | none => rfl
      | some sh =>
        show some (f (writeSheet sh w.row w.col w.code)) = some (f sh)
        rw [hf]
    · unfold writeOne
      rw [get?_modEl_other _ _ hsi]

theorem dinsert_mem_sub {β : Type} {l : List (String × β)} {k : String} {v : β}
    {kv : String × β} (h : kv ∈ dinsert l k v) : kv = (k, v) ∨ kv ∈ l := by
  induction l with
  | nil =>
    rw [dinsert] at h
    rcases List.mem_singleton.mp h with rfl
    exact Or.inl rfl
  | cons hd t ih =>
    obtain ⟨k1, v1⟩ := hd
    rw [dinsert] at h
    by_cases h1 : k1 = k
    · rw [if_pos h1] at h
      rcases List.mem_cons.mp h with rfl | h
      · exact Or.inl rfl
      · exact Or.inr (List.mem_cons_of_mem _ h)
    · rw [if_neg h1] at h
      rcases List.mem_cons.mp h with rfl | h
      · exact Or.inr (List.mem_cons_self _ _)
      · rcases ih h with h | h
        · exact Or.inl h
        · exact Or.inr (List.mem_cons_of_mem _ h)

theorem mapRowStep_mem_sub {si : Nat} {sh : Sheet} {nameCol : Nat}
    {m : List (String × (Nat × Nat))} {row : Nat} {kv : String × (Nat × Nat)}
    (h : kv ∈ mapRowStep si sh nameCol m row) : kv ∈ m ∨ kv.2 = (si, row) := by
  unfold mapRowStep at h
  by_cases ht : (sh.cells row nameCol).truthy
  · rw [if_pos ht] at h
    by_cases hn : normalizeCellText (sh.cells row nameCol).toStr ≠ ""
    · rw [if_pos hn] at h
      by_cases hs : removeSpaces (normalizeCellText (sh.cells row nameCol).toStr) ≠
          normalizeCellText (sh.cells row nameCol).toStr
      · rw [if_pos hs] at h
        rcases dinsert_mem_sub h with h | h
        · exact Or.inr (by rw [h])
        · rcases dinsert_mem_sub h with h | h
          · exact Or.inr (by rw [h])
          · exact Or.inl h
      · rw [if_neg hs] at h
        rcases dinsert_mem_sub h with h | h
        · exact Or.inr (by rw [h])
        · exact Or.inl h
    · rw [if_neg hn] at h
      exact Or.inl h
  · rw [if_neg ht] at h
    exact Or.inl h

theorem foldl_mapRowStep_mem_sub {si : Nat} {sh : Sheet} {nameCol : Nat}
    (rows : List Nat) :
    ∀ (m : List (String × (Nat × Nat))) (kv : String × (Nat × Nat)),
      kv ∈ rows.foldl (mapRowStep si sh nameCol) m → kv ∈ m ∨ kv.2.1 = si := by
  induction rows with
  | nil => intro m kv h; exact Or.inl h
  | cons row rows ih =>
    intro m kv h
    rw [List.foldl_cons] at h
    rcases ih _ kv h with h | h
    · rcases mapRowStep_mem_sub h with h | h
      · exact Or.inl h
      · exact Or.inr (by rw [h])
    · exact Or.inr h

/-- Every location stored in the lookup map points at an existing sheet. -/
theorem buildMap_mem_valid (wb : Workbook) (order : List Nat) (nameCol : Nat) :
    ∀ kv ∈ buildMap wb order nameCol, kv.2.1 < wb.length := by
  unfold buildMap
  suffices h : ∀ (m : List (String × (Nat × Nat))),
      (∀ kv ∈ m, kv.2.1 < wb.length) →
      ∀ kv ∈ order.foldl (fun m si =>
        match wb.get? si with
        | none => m
        | some sh => (List.range' 1 sh.maxRow).foldl (mapRowStep si sh nameCol) m) m,
        kv.2.1 < wb.length by
    exact h [] (fun kv hkv => absurd hkv (List.not_mem_nil kv))
  induction order with
  | nil => intro m hm kv hkv; exact hm kv hkv
  | cons si rest ih =>
    intro m hm kv hkv
    rw [List.foldl_cons] at hkv
    refine ih _ ?_ kv hkv
    intro kv2 hkv2
    cases hget : wb.get? si with
    | none =>
      rw [hget] at hkv2
      exact hm kv2 hkv2
    | some sh =>
      rw [hget] at hkv2
      rcases foldl_mapRowStep_mem_sub _ m kv2 hkv2 with h | h
      · exact hm kv2 h
      · rw [h]
        rw [List.get?_eq_some] at hget
        exact hget.1

theorem fuzzyStep_snd (itemNorm : String) (st : Frac × Option (Nat × Nat))
    (kv : String × (Nat × Nat)) :
    (fuzzyStep itemNorm st kv).2 = st.2 ∨ (fuzzyStep itemNorm st kv).2 = some kv.2 := by
  unfold fuzzyStep
  by_cases h1 : kv.1.length < 5
  · rw [if_pos h1]
    exact Or.inl rfl
  · rw [if_neg h1]
    by_cases h2 : (strContains kv.1 itemNorm || strContains itemNorm kv.1) = true
    · rw [if_pos h2]
      simp only []
      by_cases h3 : fracLt st.1 (ratioF itemNorm.length kv.1.length) = true
      · rw [if_pos h3]
        exact Or.inr rfl
      · rw [if_neg h3]
        exact Or.inl rfl
    · rw [if_neg h2]
      exact Or.inl rfl

theorem fuzzyFold_mem (itemNorm : String) (l : List (String × (Nat × Nat))) :
    ∀ (st : Frac × Option (Nat × Nat)) (loc : Nat × Nat),
      (l.foldl (fuzzyStep itemNorm) st).2 = some loc →
      (∃ k, (k, loc) ∈ l) ∨ st.2 = some loc := by
  induction l with
  | nil => intro st loc h; exact Or.inr h
  | cons kv t ih =>
    intro st loc h
    rw [List.foldl_cons] at h
    rcases ih _ loc h with ⟨k, hk⟩ | h2
    · exact Or.inl ⟨k, List.mem_cons_of_mem _ hk⟩
    · rcases fuzzyStep_snd itemNorm st kv with hs | hs
      · rw [hs] at h2
        exact Or.inr h2
      · rw [hs] at h2
        cases h2
        exact Or.inl ⟨kv.1, List.mem_cons_self _ _⟩

theorem matchItem_valid {m : List (String × (Nat × Nat))} {n : Nat}
    (hm : ∀ kv ∈ m, kv.2.1 < n) (itemNorm : String) (loc : Nat × Nat)
    (h : matchItem m itemNorm = some loc) : loc.1 < n := by
  unfold matchItem at h
  cases h1 : m.lookup itemNorm with
  | some loc1 =>
    rw [h1] at h
    cases h
    exact hm (itemNorm, loc) (lookup_mem h1)
  | none =>
    rw [h1] at h
    cases h2 : m.lookup (removeSpaces itemNorm) with
    | some loc2 =>
      rw [h2] at h
      cases h
      exact hm (removeSpaces itemNorm, loc) (lookup_mem h2)
    | none =>
      rw [h2] at h
      rcases fuzzyFold_mem itemNorm m _ loc h with ⟨k, hk⟩ | habs
      · exact hm (k, loc) hk
      · cases habs

theorem writesOf_mem {m : List (String × (Nat × Nat))} {cci : Option Nat}
    {results : List UpdateData} {w : WriteCmd} (hw : w ∈ writesOf m cci results) :
    ∃ d ∈ results, resolveCol d.columnName cci = some w.col ∧ w.col ≠ 0 ∧
      matchItem m (normalizeCellText d.item) = some (w.si, w.row) ∧ w.code = d.code := by
  unfold writesOf at hw
  rw [List.mem_filterMap] at hw
  obtain ⟨d, hd, heq⟩ := hw
  refine ⟨d, hd, ?_⟩
  split at heq
  · cases heq
  · rename_i col hres
    split at heq
    · cases heq
    · rename_i hc0
      split at heq
      · cases heq
      · rename_i si row hmatch
        cases heq
        exact ⟨hres, hc0, hmatch, rfl⟩

theorem writesOf_si_valid {m : List (String × (Nat × Nat))} {cci : Option Nat}
    {results : List UpdateData} {n : Nat} (hm : ∀ kv ∈ m, kv.2.1 < n) :
    ∀ w ∈ writesOf m cci results, w.si < n := by
  intro w hw
  obtain ⟨d, _, _, _, hmatch, _⟩ := writesOf_mem hw
  exact matchItem_valid hm (normalizeCellText d.item) (w.si, w.row) hmatch

theorem writesOf_col_ne {m : List (String × (Nat × Nat))} {cci : Option Nat}
    {results : List UpdateData} {nameCol : Nat}
    (h : ∀ d ∈ results, ∀ col, resolveCol d.columnName cci = some col → col ≠ nameCol) :
    ∀ w ∈ writesOf m cci results, w.col ≠ nameCol := by
  intro w hw
  obtain ⟨d, hd, hres, _, _, _⟩ := writesOf_mem hw
  exact h d hd w.col hres

theorem foldl_congr_fun {α β : Type} {f g : β → α → β} (l : List α)
    (h : ∀ b a, f b a = g b a) : ∀ b, l.foldl f b = l.foldl g b := by
  induction l with
  | nil => intro b; rfl
  | cons x t ih =>
    intro b
    rw [List.foldl_cons, List.foldl_cons, h b x]
    exact ih (g b x)

/-- The lookup map depends only on the sheet count, the per-sheet row
extents, and the name-column cells. -/
theorem buildMap_congr (wb1 wb2 : Workbook) (order : List Nat) (nameCol : Nat)
    (hlen : wb1.length = wb2.length)
    (hsheets : ∀ si sh1 sh2, wb1.get? si = some sh1 → wb2.get? si = some sh2 →
      sh1.maxRow = sh2.maxRow ∧ ∀ row, sh1.cells row nameCol = sh2.cells row nameCol) :
    buildMap wb1 order nameCol = buildMap wb2 order nameCol := by
  unfold buildMap
  suffices h : ∀ (m : List (String × (Nat × Nat))),
      order.foldl (fun m si =>
        match wb1.get? si with
        | none => m
        | some sh => (List.range' 1 sh.maxRow).foldl (mapRowStep si sh nameCol) m) m =
      order.foldl (fun m si =>
        match wb2.get? si with
        | none => m
        | some sh => (List.range' 1 sh.maxRow).foldl (mapRowStep si sh nameCol) m) m by
    exact h []
  induction order with
  | nil => intro m; rfl
  | cons si rest ih =>
    intro m
    rw [List.foldl_cons, List.foldl_cons]
    have hstep : (match wb1.get? si with
        | none => m
        | some sh => (List.range' 1 sh.maxRow).foldl (mapRowStep si sh nameCol) m) =
        (match wb2.get? si with
        | none => m
        | some sh => (List.range' 1 sh.maxRow).foldl (mapRowStep si sh nameCol) m) := by
      cases hget1 : wb1.get? si with
      | none =>
        cases hget2 : wb2.get? si with
        | none => rfl
        | some sh2 =>
          exfalso
          have h1 : wb1.length ≤ si := List.get?_eq_none.mp hget1
          have h2 : ¬ wb2.length ≤ si := by
            intro hge
            rw [List.get?_eq_none.mpr hge] at hget2
            cases hget2
          omega
      | some sh1 =>
        cases hget2 : wb2.get? si with
        | none =>
          exfalso
          have h1 : wb2.length ≤ si := List.get?_eq_none.mp hget2
          have h2 : ¬ wb1.length ≤ si := by
            intro hge
            rw [List.get?_eq_none.mpr hge] at hget1
            cases hget1
          omega
        | some sh2 =>
          obtain ⟨hmr, hcells⟩ := hsheets si sh1 sh2 hget1 hget2
          simp only []
          rw [hmr]
          refine foldl_congr_fun _ ?_ m
          intro m2 row
          unfold mapRowStep
          rw [hcells row]
    rw [hstep]
    exact ih _

theorem Sheet.ext_of {s1 s2 : Sheet} (h1 : s1.title = s2.title)
    (h2 : s1.maxRow = s2.maxRow) (h3 : s1.maxCol = s2.maxCol)
    (h4 : ∀ r c, s1.cells r c = s2.cells r c) : s1 = s2 := by
  cases s1 with
  | mk t1 mr1 mc1 cells1 =>
    cases s2 with
    | mk t2 mr2 mc2 cells2 =>
      simp only [] at h1 h2 h3
      subst h1
      subst h2
      subst h3
      congr 1
      funext r c
      exact h4 r c

/-- C6 (counterexample): write-back is not idempotent for every
(workbook, results) pair.  With the written column equal to the
name column (pandas column 0 → openpyxl column 1) and a duplicated item
text, the first run writes the code into row 2 (the dict keeps the last
scan position for a duplicated key), while the second run re-locates the
item at row 1 — whose text is still intact — and overwrites it too:
running the write-back twice changes a cell the single run left alone. -/
theorem format41Update_not_idempotent :
    cellAt (format41Update [idemCexSheet] 0 1 none [⟨"99", .inl 0, "bolt a"⟩]) 0 1 1 =
      .vStr "bolt a" ∧
    cellAt (format41Update (format41Update [idemCexSheet] 0 1 none [⟨"99", .inl 0, "bolt a"⟩])
      0 1 none [⟨"99", .inl 0, "bolt a"⟩]) 0 1 1 = .vStr "99" := by
  decide

/-- C6 (amended): the matching write-back is idempotent for every
(workbook, results) pair in which no result resolves its code column to
the item-name column (the operating condition of the processors, whose
code column is distinct from the name column): running it twice yields
exactly the same workbook as running it once.  When a result writes into
the name column itself, the second run can re-match against overwritten
texts and drift (see the counterexample). -/
theorem format41Update_idempotent (wb : Workbook) (cur nameCol : Nat)
    (cci : Option Nat) (results : List UpdateData)
    (h : ∀ d ∈ results, ∀ col, resolveCol d.columnName cci = some col → col ≠ nameCol) :
    format41Update (format41Update wb cur nameCol cci results) cur nameCol cci results =
      format41Update wb cur nameCol cci results := by
  have hm_valid := buildMap_mem_valid wb (sheetsToSearch wb cur) nameCol
  have hv1 : ∀ w ∈ writesOf (buildMap wb (sheetsToSearch wb cur) nameCol) cci results,
      w.si < wb.length := writesOf_si_valid hm_valid
  have hcol : ∀ w ∈ writesOf (buildMap wb (sheetsToSearch wb cur) nameCol) cci results,
      w.col ≠ nameCol := writesOf_col_ne h
  have h1 := format41Update_eq_applyWrites wb cur nameCol cci results
  set m := buildMap wb (sheetsToSearch wb cur) nameCol with hm
  set W := writesOf m cci results with hW
  set wb1 := applyWrites wb W with hwb1
  have hlen1 : wb1.length = wb.length := applyWrites_length W wb
  have hv1b : ∀ w ∈ W, w.si < wb1.length := by
    rw [hlen1]
    exact hv1
  have hname : ∀ si r, cellAt wb1 si r nameCol = cellAt wb si r nameCol := by
    intro si r
    refine cellAt_applyWrites_untouched W wb si r nameCol hv1 ?_
    intro w hw ht
    unfold targets at ht
    simp only [Bool.and_eq_true, beq_iff_eq] at ht
    exact hcol w hw ht.2
  have horder : sheetsToSearch wb1 cur = sheetsToSearch wb cur := by
    unfold sheetsToSearch
    rw [hlen1]
  have hm2 : buildMap wb1 (sheetsToSearch wb1 cur) nameCol = m := by
    rw [horder, hm]
    refine buildMap_congr wb1 wb (sheetsToSearch wb cur) nameCol hlen1 ?_
    intro si sh1 sh2 hget1 hget2
    constructor
    · have hmr := get?_applyWrites_proj Sheet.maxRow writeSheet_maxRow W wb si
      rw [hget1, hget2] at hmr
      exact Option.some.inj hmr
    · intro row
      have hc := hname si row
      rw [cellAt_eq_of_get? hget1, cellAt_eq_of_get? hget2] at hc
      exact hc
  rw [h1, format41Update_eq_applyWrites wb1 cur nameCol cci results, hm2, ← hW]
  -- it remains to show applyWrites wb1 W = wb1
  have hlen2 : (applyWrites wb1 W).length = wb1.length := applyWrites_length W wb1
  apply List.ext_get?
  intro si
  cases hget : wb1.get? si with
  | none =>
    rw [List.get?_eq_none]
    rw [hlen2]
    exact List.get?_eq_none.mp hget
  | some sh1 =>
    cases hget2 : (applyWrites wb1 W).get? si with
    | none =>
      exfalso
      have ha : wb1.length ≤ si := by
        rw [← hlen2]
        exact List.get?_eq_none.mp hget2
      rw [List.get?_eq_none.mpr ha] at hget
      cases hget
    | some sh2 =>
      have hcells : ∀ r c, sh2.cells r c = sh1.cells r c := by
        intro r c
        rw [← cellAt_eq_of_get? hget2 r c, ← cellAt_eq_of_get? hget r c]
        have e1 := cellAt_applyWrites W wb1 si r c hv1b
        have e2 : cellAt wb1 si r c =
            ((W.filter (fun w => targets w si r c)).map (fun w => w.code)).foldl
              cellWriteStep (cellAt wb si r c) := by
          rw [hwb1]
          exact cellAt_applyWrites W wb si r c hv1
        calc cellAt (applyWrites wb1 W) si r c
            = ((W.filter (fun w => targets w si r c)).map (fun w => w.code)).foldl
                cellWriteStep (cellAt wb1 si r c) := e1
          _ = ((W.filter (fun w => targets w si r c)).map (fun w => w.code)).foldl
                cellWriteStep
                (((W.filter (fun w => targets w si r c)).map (fun w => w.code)).foldl
                  cellWriteStep (cellAt wb si r c)) := by rw [← e2]
          _ = ((W.filter (fun w => targets w si r c)).map (fun w => w.code)).foldl
                cellWriteStep (cellAt wb si r c) := cellWriteStep_foldl_idem _ _
          _ = cellAt wb1 si r c := e2.symm
      have htit := get?_applyWrites_proj Sheet.title writeSheet_title W wb1 si
      have hmr := get?_applyWrites_proj Sheet.maxRow writeSheet_maxRow W wb1 si
      have hmc := get?_applyWrites_proj Sheet.maxCol writeSheet_maxCol W wb1 si
      rw [hget, hget2] at htit hmr hmc
      exact congrArg some (Sheet.ext_of (Option.some.inj htit) (Option.some.inj hmr)
        (Option.some.inj hmc) hcells)

/-- C6 (witness): with the code column (2) distinct from the name
column (1), running the write-back twice on a concrete workbook equals
running it once. -/
theorem format41Update_idempotent_witness :
    format41Update (format41Update [idemWitnessSheet] 0 1 none
        [⟨"42", .inl 1, "bolt item y"⟩]) 0 1 none [⟨"42", .inl 1, "bolt item y"⟩] =
      format41Update [idemWitnessSheet] 0 1 none [⟨"42", .inl 1, "bolt item y"⟩] :=
  format41Update_idempotent [idemWitnessSheet] 0 1 none
    [⟨"42", .inl 1, "bolt item y"⟩] (by decide)
